import Mathlib

/-!
# pjz: shallow embedding of `src/pjz.cpp`

The compressor of `pjz.cpp` (namespace `Lz4pj`) is embedded function by function.

* `u32` values are natural numbers; a subtraction that can wrap is `sub32`, an
  addition that can wrap carries an explicit `% 2 ^ 32`.  Increments of a scan
  index that stays below `raw_len < 2 ^ 32` are plain additions.
* `u8` buffers (`raw`, `lits`) are lists of `Fin 256`; a read is `List.getD`.
* `out_buf` is the sequence of bytes written so far, `index` is its length; a
  writer function returns the bytes it appends.
* The chunk arrays `lit_lens`, `match_lens`, `match_offsets` are the lists of the
  slots written so far; `add_chunk` appends slot `n_chunks`.  A read of a slot that
  was never written (uninitialised or outside the array) has no value: the reader
  returns `none`.
* `last_bytepair_indexes` is a function from the 16-bit key to the stored index;
  its initial content is a parameter, since the constructor does not fill it.
* A `while`/`for` loop is a recursion on a fuel argument that is large enough for
  the loop to reach its exit test.  `generate_chunks` is its early return, its main
  loop `generate_loop` (with the inner `skip_loop`) and the statements behind the
  loop, `generate_chunks_finish`.
-/

namespace Lz4pj

/-- Bytes, the `u8` of the source. -/
abbrev u8 : Type := Fin 256

/-- Subtraction `a - b` of two `u32` values (both below `2 ^ 32`), wrapping modulo
`2 ^ 32` when `a < b`. -/
def sub32 (a b : Nat) : Nat := if b ≤ a then a - b else a + 2 ^ 32 - b

def MIN_MATCH_OFFSET : Nat := 1

def NO_MAX_MATCH_LEN : Nat := 0
def NO_MAX_MATCH_OFFSET : Nat := 0

def MIN_MAIN_PASS_MATCH_LEN : Nat := 4
def MAX_MAIN_PASS_MATCH_LEN : Nat := NO_MAX_MATCH_LEN
def MAX_MAIN_PASS_MATCH_OFFSET : Nat := NO_MAX_MATCH_OFFSET

def MIN_3BYTE_PASS_MATCH_LEN : Nat := 3
def MAX_3BYTE_PASS_MATCH_LEN : Nat := 3
def MAX_3BYTE_PASS_MATCH_OFFSET : Nat := 256

def MIN_2BYTE_PASS_MATCH_LEN : Nat := 2
def MAX_2BYTE_PASS_MATCH_LEN : Nat := 2
def MAX_2BYTE_PASS_MATCH_OFFSET : Nat := 256

/-! ## `out_buf` -/

/-- `out_buf::out`: appends one byte; the argument is converted to `u8`. -/
def out (byte : Nat) : List Nat := [byte % 256]

/-- `out_buf::write_bytes`: `memcpy` of `n_bytes` bytes. -/
def write_bytes (bytes : List u8) (n_bytes : Nat) : List Nat :=
  (bytes.take n_bytes).map Fin.val

/-- The `while(len)` loop of `out_buf::write_utf8_len`. -/
def write_utf8_len_loop : Nat → Nat → List Nat
  | 0, _ => []
  | fuel + 1, len =>
    if len ≠ 0 then
      let hibit := if len < 128 then 0 else 0x80
      out ((len &&& 0x7f) ||| hibit) ++ write_utf8_len_loop fuel (len >>> 7)
    else []

/-- `out_buf::write_utf8_len`.  The loop shifts `len` right by 7 bits each turn, so
`len` turns are more than enough. -/
def write_utf8_len (len : Nat) : List Nat :=
  (if len = 0 then out 0 else []) ++ write_utf8_len_loop len len

/-- `out_buf::write_long_len`. -/
def write_long_len (len : Nat) : List Nat :=
  if len ≥ 15 then
    let len := len - 15
    if len < 255 then
      out len
    else
      let len := len - 255
      out 255 ++
        (if len < 255 * 256 then
          out (len >>> 8) ++ out len
        else
          out 255 ++ out (len >>> 24) ++ out (len >>> 16) ++ out (len >>> 8) ++ out len)
  else []

/-- `out_buf::write_len_pair`. -/
def write_len_pair (len1 len2 min_len : Nat) : List Nat :=
  let len1 := sub32 len1 min_len
  let nibble1 := (if len1 < 15 then len1 else 15) % 256
  let len2 := sub32 len2 min_len
  let nibble2 := (if len2 < 15 then len2 else 15) % 256
  let nibble_pair := ((nibble1 <<< 4) ||| nibble2) % 256
  out nibble_pair ++ write_long_len len1 ++ write_long_len len2

/-- The `for(u32 i = 0; i < n_lens-1; i += 2)` loop of `out_buf::write_lens`; both
`n_lens-1` and `i += 2` are `u32` operations.  Running out of fuel is `none`. -/
def write_lens_loop (lens : List Nat) (n_lens min_len : Nat) : Nat → Nat → Option (List Nat)
  | 0, _ => none
  | fuel + 1, i =>
    if i < sub32 n_lens 1 then
      match lens[i]?, lens[i + 1]? with
      | some len1, some len2 =>
        match write_lens_loop lens n_lens min_len fuel ((i + 2) % 2 ^ 32) with
        | some rest => some (write_len_pair len1 len2 min_len ++ rest)
        | none => none
      | _, _ => none
    else some []

/-- `out_buf::write_lens`.  For `n_lens ≥ 1` the loop body runs `(n_lens - 1) / 2`
times (rounded up), so `n_lens + 1` turns reach the exit test. -/
def write_lens (lens : List Nat) (n_lens min_len : Nat) : Option (List Nat) :=
  match write_lens_loop lens n_lens min_len (n_lens + 1) 0 with
  | some pairs =>
    if n_lens &&& 1 ≠ 0 then
      match lens[n_lens - 1]? with
      | some len => some (pairs ++ write_len_pair len 0 min_len)
      | none => none
    else some pairs
  | none => none

/-- `out_buf::write_match_offset`, for the template parameter `MAX_MATCH_OFFSET`. -/
def write_match_offset (MAX_MATCH_OFFSET offset : Nat) : List Nat :=
  if sub32 MAX_MATCH_OFFSET MIN_MATCH_OFFSET < 256 then
    out offset
  else
    write_utf8_len (sub32 offset MIN_MATCH_OFFSET)

/-- The loop of `out_buf::write_match_offsets`, counting `i` up to `n_offsets`. -/
def write_match_offsets_loop (MAX_MATCH_OFFSET : Nat) (offsets : List Nat) (n_offsets : Nat) :
    Nat → Nat → Option (List Nat)
  | 0, _ => none
  | fuel + 1, i =>
    if i < n_offsets then
      match offsets[i]? with
      | some offset =>
        match write_match_offsets_loop MAX_MATCH_OFFSET offsets n_offsets fuel (i + 1) with
        | some rest => some (write_match_offset MAX_MATCH_OFFSET offset ++ rest)
        | none => none
      | none => none
    else some []

/-- `out_buf::write_match_offsets`. -/
def write_match_offsets (MAX_MATCH_OFFSET : Nat) (offsets : List Nat) (n_offsets : Nat) :
    Option (List Nat) :=
  write_match_offsets_loop MAX_MATCH_OFFSET offsets n_offsets (n_offsets + 1) 0

/-! ## `Lz4pjCState` -/

/-- The fields of `Lz4pjCState`. -/
structure Lz4pjCState where
  last_bytepair_indexes : Nat → Nat
  lit_lens : List Nat
  match_lens : List Nat
  match_offsets : List Nat
  n_chunks : Nat
  trailing_lit_len : Nat
  lits : List u8
  n_lits : Nat

/-- The number of chunk slots `Lz4pjCState::init` allocates. -/
def max_nchunks (raw_len : Nat) : Nat := (raw_len + 3) / 4

/-- The constructor followed by `Lz4pjCState::init`: `table` is whatever the fresh
`last_bytepair_indexes` array holds. -/
def init (table : Nat → Nat) : Lz4pjCState :=
  { last_bytepair_indexes := table
    lit_lens := []
    match_lens := []
    match_offsets := []
    n_chunks := 0
    trailing_lit_len := 0
    lits := []
    n_lits := 0 }

/-- The assignment `last_bytepair_indexes[byte_pair] = index`. -/
def set_index (table : Nat → Nat) (byte_pair index : Nat) : Nat → Nat :=
  fun key => if key = byte_pair then index else table key

/-- `Lz4pjCState::get_byte_pair`; the result is a `u16`. -/
def get_byte_pair (raw : List u8) (index : Nat) : Nat :=
  (((raw.getD index 0).val <<< 8) ||| (raw.getD (index + 1) 0).val) % 65536

/-- The `while` loop of `Lz4pjCState::get_match_len`; returns the final `index`. -/
def get_match_len_loop (MAX_MATCH_LEN : Nat) (raw : List u8) (raw_len start_index : Nat) :
    Nat → Nat → Nat → Nat
  | 0, index, _ => index
  | fuel + 1, index, match_index =>
    if index < raw_len
        ∧ (MAX_MATCH_LEN = NO_MAX_MATCH_LEN ∨ index < (start_index + MAX_MATCH_LEN) % 2 ^ 32)
        ∧ raw.getD index 0 = raw.getD match_index 0 then
      get_match_len_loop MAX_MATCH_LEN raw raw_len start_index fuel (index + 1) (match_index + 1)
    else index

/-- `Lz4pjCState::get_match_len`.  The loop stops at `index = raw_len` at the latest,
so `raw_len - index` turns reach the exit test. -/
def get_match_len (MAX_MATCH_LEN : Nat) (raw : List u8) (raw_len index match_index : Nat) : Nat :=
  if index ≤ match_index then 0
  else
    get_match_len_loop MAX_MATCH_LEN raw raw_len index (raw_len - index) index match_index - index

/-- `Lz4pjCState::add_chunk`. -/
def add_chunk (st : Lz4pjCState) (lit_len match_len match_offset : Nat) : Lz4pjCState :=
  { st with
    lit_lens := st.lit_lens ++ [lit_len]
    match_lens := st.match_lens ++ [match_len]
    match_offsets := st.match_offsets ++ [match_offset]
    n_chunks := st.n_chunks + 1 }

/-- The inner `while(index < start_lit_index)` loop of `generate_chunks`; returns the
table and the final `index`. -/
def skip_loop (raw : List u8) (start_lit_index : Nat) :
    Nat → (Nat → Nat) → Nat → (Nat → Nat) × Nat
  | 0, table, index => (table, index)
  | fuel + 1, table, index =>
    if index < start_lit_index then
      let byte_pair := get_byte_pair raw index
      skip_loop raw start_lit_index fuel (set_index table byte_pair index) (index + 1)
    else (table, index)

/-- The main `for` loop of `Lz4pjCState::generate_chunks`; returns the state and
`start_lit_index` at loop exit. -/
def generate_loop (MIN_MATCH_LEN MAX_MATCH_LEN : Nat) (raw : List u8) (raw_len : Nat) :
    Nat → Lz4pjCState → Nat → Nat → Lz4pjCState × Nat
  | 0, st, start_lit_index, _ => (st, start_lit_index)
  | fuel + 1, st, start_lit_index, index =>
    if index < raw_len - 1 then
      let byte_pair := get_byte_pair raw index
      let match_index := st.last_bytepair_indexes byte_pair
      let st := { st with
        last_bytepair_indexes := set_index st.last_bytepair_indexes byte_pair index }
      let match_len := get_match_len MAX_MATCH_LEN raw raw_len index match_index
      if match_len ≥ MIN_MATCH_LEN then
        let lit_len := sub32 index start_lit_index
        let match_offset := sub32 index match_index
        let st := add_chunk st lit_len match_len match_offset
        let start_lit_index := min (index + match_len) (raw_len - 1)
        let skipped := skip_loop raw start_lit_index raw_len st.last_bytepair_indexes (index + 1)
        generate_loop MIN_MATCH_LEN MAX_MATCH_LEN raw raw_len fuel
          { st with last_bytepair_indexes := skipped.1 } start_lit_index skipped.2
      else
        generate_loop MIN_MATCH_LEN MAX_MATCH_LEN raw raw_len fuel
          { st with lits := st.lits ++ [raw.getD index 0], n_lits := st.n_lits + 1 }
          start_lit_index (index + 1)
    else (st, start_lit_index)

/-- The end of `Lz4pjCState::generate_chunks`, behind the main loop: the trailing
literal length and the last byte, for the state and `start_lit_index` the loop left. -/
def generate_chunks_finish (raw : List u8) (raw_len : Nat) (r : Lz4pjCState × Nat) :
    Lz4pjCState :=
  let st : Lz4pjCState := { r.1 with trailing_lit_len := sub32 raw_len r.2 }
  if st.trailing_lit_len ≠ 0 then
    { st with lits := st.lits ++ [raw.getD (raw_len - 1) 0], n_lits := st.n_lits + 1 }
  else st

/-- `Lz4pjCState::generate_chunks`.  Every turn of the main loop advances `index`, so
`raw_len` turns reach the exit test. -/
def generate_chunks (MIN_MATCH_LEN MAX_MATCH_LEN : Nat) (st : Lz4pjCState) (raw : List u8)
    (raw_len : Nat) : Lz4pjCState :=
  if raw_len = 0 then st
  else
    generate_chunks_finish raw raw_len
      (generate_loop MIN_MATCH_LEN MAX_MATCH_LEN raw raw_len raw_len st 0 0)

/-- The byte `Lz4pjCState::VERSION`. -/
def VERSION : Nat := 0

/-- `Lz4pjCState::write_compressed`: the bytes written to `compressed`; the returned
size is their number. -/
def write_compressed (MIN_MATCH_LEN MAX_MATCH_LEN MAX_MATCH_OFFSET : Nat) (st : Lz4pjCState) :
    Option (List Nat) :=
  let header := out VERSION ++ write_utf8_len st.n_lits ++ write_bytes st.lits st.n_lits
    ++ write_utf8_len st.n_chunks
  match write_lens st.lit_lens st.n_chunks 0 with
  | none => none
  | some lit_len_bytes =>
    match (if MIN_MATCH_LEN ≠ MAX_MATCH_LEN then
        write_lens st.match_lens st.n_chunks MIN_MATCH_LEN else some []) with
    | none => none
    | some match_len_bytes =>
      match write_match_offsets MAX_MATCH_OFFSET st.match_offsets st.n_chunks with
      | none => none
      | some offset_bytes =>
        some (header ++ lit_len_bytes ++ match_len_bytes ++ offset_bytes
          ++ write_utf8_len st.trailing_lit_len)

/-! ## The reader of the stream format (specification side)

`pjz.cpp` has no decoder.  The definitions below follow the format table and the
encoder descriptions of the specification; their names start with `spec_`. -/

/-- Specification side: the little-endian base-128 value of a byte sequence, the
low 7 bits of each byte being one group. -/
def spec_leb_value : List Nat → Nat
  | [] => 0
  | b :: bs => b % 128 + 128 * spec_leb_value bs

/-- Specification side: reader of a basic varint; a byte with the high bit set is
followed by another group.  Returns the value and the unread bytes. -/
def spec_read_varint : List Nat → Option (Nat × List Nat)
  | [] => none
  | b :: bs =>
    if b < 128 then some (b, bs)
    else
      match spec_read_varint bs with
      | some (v, rest) => some (b % 128 + 128 * v, rest)
      | none => none

/-- Specification side: the escape chain behind one nibble.  A nibble below 15 is the
value; nibble 15 then a byte `b < 255` is `15 + b`; byte 255 then a big-endian 16-bit
word whose first byte is below 255 is `15 + 255 + word`; bytes 255 255 then a
big-endian 32-bit word is `15 + 255 + dword`. -/
def spec_read_long_len (nibble : Nat) (bytes : List Nat) : Option (Nat × List Nat) :=
  if nibble < 15 then some (nibble, bytes)
  else
    match bytes with
    | [] => none
    | b :: rest =>
      if b < 255 then some (15 + b, rest)
      else
        match rest with
        | [] => none
        | w1 :: rest1 =>
          if w1 < 255 then
            match rest1 with
            | w0 :: rest2 => some (15 + 255 + (w1 * 256 + w0), rest2)
            | [] => none
          else
            match rest1 with
            | d3 :: d2 :: d1 :: d0 :: rest2 =>
              some (15 + 255 + (d3 * 2 ^ 24 + d2 * 2 ^ 16 + d1 * 2 ^ 8 + d0), rest2)
            | _ => none

/-- Specification side: reader of one nibble-pair byte and the overflow bytes of its two
values; `min_len` is added back in `u32` arithmetic. -/
def spec_read_len_pair (min_len : Nat) (bytes : List Nat) : Option ((Nat × Nat) × List Nat) :=
  match bytes with
  | [] => none
  | nibble_pair :: rest =>
    match spec_read_long_len (nibble_pair / 16) rest with
    | none => none
    | some (v1, rest1) =>
      match spec_read_long_len (nibble_pair % 16) rest1 with
      | none => none
      | some (v2, rest2) => some (((v1 + min_len) % 2 ^ 32, (v2 + min_len) % 2 ^ 32), rest2)

/-- Specification side: reader of a length section of `n` values, pair by pair; the
second value of the last pair of an odd section is padding and is dropped. -/
def spec_read_lens (min_len : Nat) : Nat → List Nat → Option (List Nat × List Nat)
  | 0, bytes => some ([], bytes)
  | 1, bytes =>
    match spec_read_len_pair min_len bytes with
    | some ((v1, _), rest) => some ([v1], rest)
    | none => none
  | n + 2, bytes =>
    match spec_read_len_pair min_len bytes with
    | some ((v1, v2), rest) =>
      match spec_read_lens min_len n rest with
      | some (vs, rest1) => some (v1 :: v2 :: vs, rest1)
      | none => none
    | none => none

/-- Specification side: reader of `n` match offsets of the wide pass, each stored as the
basic varint of `offset - 1`. -/
def spec_read_offsets : Nat → List Nat → Option (List Nat × List Nat)
  | 0, bytes => some ([], bytes)
  | n + 1, bytes =>
    match spec_read_varint bytes with
    | some (v, rest) =>
      match spec_read_offsets n rest with
      | some (vs, rest1) => some ((v + 1) :: vs, rest1)
      | none => none
    | none => none

/-- Specification side: copy `match_len` bytes, one at a time, from `match_offset` bytes
before the current end of the output. -/
def spec_copy_match (match_offset : Nat) : Nat → List Nat → Option (List Nat)
  | 0, output => some output
  | n + 1, output =>
    if 1 ≤ match_offset ∧ match_offset ≤ output.length then
      spec_copy_match match_offset n (output ++ [output.getD (output.length - match_offset) 0])
    else none

/-- Specification side: replay of the chunk list: for each chunk `literal_len` bytes
from the literal buffer, then the match copy; at the end `trailing` literal bytes. -/
def spec_replay (literals : List Nat) (trailing : Nat) :
    List Nat → List Nat → List Nat → Nat → List Nat → Option (List Nat)
  | lit_len :: lit_lens, match_len :: match_lens, match_offset :: match_offsets, used, output =>
    if used + lit_len ≤ literals.length then
      match spec_copy_match match_offset match_len
          (output ++ (literals.drop used).take lit_len) with
      | some output1 =>
        spec_replay literals trailing lit_lens match_lens match_offsets (used + lit_len) output1
      | none => none
    else none
  | _, _, _, used, output =>
    if used + trailing ≤ literals.length then
      some (output ++ (literals.drop used).take trailing)
    else none

/-- Specification side: decoder of a wide-pass stream (`min_match_len = 4`, match
lengths stored, offsets stored as varints): version byte, literal count and bytes,
chunk count, literal lengths, match lengths, match offsets, trailing length. -/
def spec_decode (bytes : List Nat) : Option (List Nat) :=
  match bytes with
  | [] => none
  | version :: rest0 =>
    if version ≠ 0 then none
    else do
      let (literal_count, rest1) ← spec_read_varint rest0
      if rest1.length < literal_count then none
      else do
        let literals := rest1.take literal_count
        let (chunk_count, rest2) ← spec_read_varint (rest1.drop literal_count)
        let (lit_lens, rest3) ← spec_read_lens 0 chunk_count rest2
        let (match_lens, rest4) ← spec_read_lens MIN_MAIN_PASS_MATCH_LEN chunk_count rest3
        let (match_offsets, rest5) ← spec_read_offsets chunk_count rest4
        let (trailing, _) ← spec_read_varint rest5
        spec_replay literals trailing lit_lens match_lens match_offsets 0 []

/-! ## Sums over the chunk arrays -/

/-- Position of the scan when chunk `j` was recorded, for chunks that follow one
another without a gap: the literal and match lengths of the chunks before it, plus
its own literal length. -/
def chunk_pos (lit_lens match_lens : List Nat) (j : Nat) : Nat :=
  (lit_lens.take j).sum + (match_lens.take j).sum + lit_lens.getD j 0

/-- A chunk recorded at scan position `i` is a genuine backward reference of at least
`MIN_MATCH_LEN` bytes inside the input. -/
def chunk_ok (MIN_MATCH_LEN : Nat) (raw : List u8) (raw_len i match_len match_offset : Nat) :
    Prop :=
  1 ≤ match_offset ∧ match_offset ≤ i ∧ MIN_MATCH_LEN ≤ match_len ∧ i + match_len ≤ raw_len
    ∧ ∀ k, k < match_len → raw.getD (i + k) 0 = raw.getD (i - match_offset + k) 0

/-- Invariant of the main loop of `generate_chunks` at its exit test, for the state
`st`, the start `start_lit_index` of the current literal run and the scan position
`index`. -/
structure LoopInv (MIN_MATCH_LEN : Nat) (raw : List u8) (raw_len : Nat) (st : Lz4pjCState)
    (start_lit_index index : Nat) : Prop where
  start_le : start_lit_index ≤ index
  index_le : index ≤ raw_len - 1
  len_lit : st.lit_lens.length = st.n_chunks
  len_match : st.match_lens.length = st.n_chunks
  len_off : st.match_offsets.length = st.n_chunks
  len_lits : st.lits.length = st.n_lits
  n_lits_eq : st.n_lits = st.lit_lens.sum + (index - start_lit_index)
  covered : st.lit_lens.sum + st.match_lens.sum = start_lit_index
    ∨ (st.lit_lens.sum + st.match_lens.sum = raw_len ∧ start_lit_index = raw_len - 1
        ∧ index = raw_len - 1 ∧ 0 < st.n_chunks)
  chunks_ok : ∀ j, j < st.n_chunks →
    chunk_ok MIN_MATCH_LEN raw raw_len (chunk_pos st.lit_lens st.match_lens j)
      (st.match_lens.getD j 0) (st.match_offsets.getD j 0)

/-! ## The main loop turn by turn -/

/-- One turn of the main `for` loop of `Lz4pjCState::generate_chunks`, its body, on the
triple of the state, `start_lit_index` and `index`. -/
def generate_turn (MIN_MATCH_LEN MAX_MATCH_LEN : Nat) (raw : List u8) (raw_len : Nat)
    (s : Lz4pjCState × Nat × Nat) : Lz4pjCState × Nat × Nat :=
  let st := s.1
  let start_lit_index := s.2.1
  let index := s.2.2
  let byte_pair := get_byte_pair raw index
  let match_index := st.last_bytepair_indexes byte_pair
  let st : Lz4pjCState := { st with
    last_bytepair_indexes := set_index st.last_bytepair_indexes byte_pair index }
  let match_len := get_match_len MAX_MATCH_LEN raw raw_len index match_index
  if match_len ≥ MIN_MATCH_LEN then
    let lit_len := sub32 index start_lit_index
    let match_offset := sub32 index match_index
    let st := add_chunk st lit_len match_len match_offset
    let start_lit_index := min (index + match_len) (raw_len - 1)
    let skipped := skip_loop raw start_lit_index raw_len st.last_bytepair_indexes (index + 1)
    ({ st with last_bytepair_indexes := skipped.1 }, start_lit_index, skipped.2)
  else
    ({ st with lits := st.lits ++ [raw.getD index 0], n_lits := st.n_lits + 1 },
      start_lit_index, index + 1)

/-- The triple at the exit test of the main loop after at most `k` turns: the start of
turn `k + 1`, or the exit of the loop when it came earlier. -/
def generate_head (MIN_MATCH_LEN MAX_MATCH_LEN : Nat) (raw : List u8) (raw_len : Nat) :
    Nat → Lz4pjCState × Nat × Nat → Lz4pjCState × Nat × Nat
  | 0, s => s
  | k + 1, s =>
    if s.2.2 < raw_len - 1 then
      generate_head MIN_MATCH_LEN MAX_MATCH_LEN raw raw_len k
        (generate_turn MIN_MATCH_LEN MAX_MATCH_LEN raw raw_len s)
    else s

/-- Specification side: the chunks of the replay without the trailing literals; returns
the number of literals taken from the literal buffer and the output. -/
def spec_replay_chunks (literals : List Nat) :
    List Nat → List Nat → List Nat → Nat → List Nat → Option (Nat × List Nat)
  | lit_len :: lit_lens, match_len :: match_lens, match_offset :: match_offsets, used, output =>
    if used + lit_len ≤ literals.length then
      match spec_copy_match match_offset match_len
          (output ++ (literals.drop used).take lit_len) with
      | some output1 =>
        spec_replay_chunks literals lit_lens match_lens match_offsets (used + lit_len) output1
      | none => none
    else none
  | _, _, _, used, output => some (used, output)

/-- The byte-pair table `tbl` at scan position `i`, against the initial table `table0`:
for every key that occurs at a position below `i`, the slot holds the greatest such
position; every other slot holds its initial value. -/
def table_ok (raw : List u8) (table0 tbl : Nat → Nat) (i : Nat) : Prop :=
  ∀ key,
    (∃ j, j < i ∧ get_byte_pair raw j = key ∧ tbl key = j
      ∧ ∀ j2, j2 < i → get_byte_pair raw j2 = key → j2 ≤ j)
    ∨ ((∀ j, j < i → get_byte_pair raw j ≠ key) ∧ tbl key = table0 key)

/-! ## Arithmetic of the byte operations -/

theorem sub32_of_le (a b : Nat) (h : b ≤ a) : sub32 a b = a - b := by
  unfold sub32
  rw [if_pos h]

theorem sub32_lt (a b : Nat) (ha : a < 2 ^ 32) : sub32 a b < 2 ^ 32 := by
  unfold sub32
  split <;> omega

theorem and_7f_eq (x : Nat) : x &&& 0x7f = x % 128 :=
  Nat.and_pow_two_sub_one_eq_mod x 7

theorem or_80_eq (x : Nat) (h : x < 128) : x ||| 0x80 = x + 128 := by
  have h2 := Nat.mul_add_lt_is_or (i := 7) (b := x) (by simpa using h) 1
  rw [Nat.lor_comm]
  simpa [Nat.add_comm] using h2.symm

theorem shl4_or_eq (a b : Nat) (hb : b < 16) : (a <<< 4) ||| b = 16 * a + b := by
  have h2 := Nat.mul_add_lt_is_or (i := 4) (b := b) (by simpa using hb) a
  rw [Nat.shiftLeft_eq, Nat.mul_comm]
  simpa using h2.symm

/-! ## The basic varint -/

/-- The loop of `write_utf8_len` does not depend on the fuel once the fuel is at least
`len`. -/
theorem write_utf8_len_loop_fuel (fuel : Nat) :
    ∀ len fuel2, len ≤ fuel → len ≤ fuel2 →
      write_utf8_len_loop fuel len = write_utf8_len_loop fuel2 len := by
  induction fuel with
  | zero =>
    intro len fuel2 h1 _
    have : len = 0 := by omega
    subst this
    cases fuel2 <;> simp [write_utf8_len_loop]
  | succ f ih =>
    intro len fuel2 h1 h2
    by_cases h0 : len = 0
    · subst h0
      cases fuel2 <;> simp [write_utf8_len_loop]
    · obtain ⟨g, rfl⟩ : ∃ g, fuel2 = g + 1 := ⟨fuel2 - 1, by omega⟩
      have hs : len >>> 7 < len := by
        rw [Nat.shiftRight_eq_div_pow]
        exact Nat.div_lt_self (by omega) (by norm_num)
      simp only [write_utf8_len_loop, h0, ne_eq, not_false_eq_true, if_true]
      rw [ih (len >>> 7) g (by omega) (by omega)]

theorem write_utf8_len_loop_step (len : Nat) (h0 : len ≠ 0) :
    write_utf8_len_loop len len
      = (len % 128 + if len < 128 then 0 else 128) :: write_utf8_len_loop (len / 128) (len / 128) := by
  obtain ⟨g, hg⟩ : ∃ g, len = g + 1 := ⟨len - 1, by omega⟩
  have hs : len / 128 < len := Nat.div_lt_self (by omega) (by norm_num)
  conv_lhs => rw [hg, write_utf8_len_loop, ← hg]
  simp only [h0, ne_eq, not_false_eq_true, if_true, and_7f_eq, Nat.shiftRight_eq_div_pow]
  rw [write_utf8_len_loop_fuel g (len / 2 ^ 7) (len / 128) (by norm_num; omega) (by norm_num)]
  have hm : len % 128 < 128 := Nat.mod_lt _ (by norm_num)
  by_cases hl : len < 128
  · simp [hl, out]; omega
  · simp [hl, out, or_80_eq _ hm]; omega

/-- The groups `write_utf8_len` emits for a `u32`, written out. -/
theorem write_utf8_len_cases (v : Nat) (hv : v < 2 ^ 32) :
    (v = 0 ∧ write_utf8_len v = [0])
    ∨ (0 < v ∧ v < 2 ^ 7 ∧ write_utf8_len v = [v])
    ∨ (2 ^ 7 ≤ v ∧ v < 2 ^ 14 ∧ write_utf8_len v = [v % 128 + 128, v / 128])
    ∨ (2 ^ 14 ≤ v ∧ v < 2 ^ 21 ∧
        write_utf8_len v = [v % 128 + 128, v / 128 % 128 + 128, v / 128 / 128])
    ∨ (2 ^ 21 ≤ v ∧ v < 2 ^ 28 ∧
        write_utf8_len v
          = [v % 128 + 128, v / 128 % 128 + 128, v / 128 / 128 % 128 + 128, v / 128 / 128 / 128])
    ∨ (2 ^ 28 ≤ v ∧
        write_utf8_len v
          = [v % 128 + 128, v / 128 % 128 + 128, v / 128 / 128 % 128 + 128,
              v / 128 / 128 / 128 % 128 + 128, v / 128 / 128 / 128 / 128]) := by
  by_cases h0 : v = 0
  · left; subst h0; exact ⟨rfl, by decide⟩
  right
  have hz : ∀ x, x = 0 → write_utf8_len_loop x x = [] := by
    intro x hx; subst hx; rfl
  unfold write_utf8_len
  rw [if_neg h0, List.nil_append, write_utf8_len_loop_step v h0]
  by_cases h1 : v < 2 ^ 7
  · left
    refine ⟨by omega, h1, ?_⟩
    rw [hz (v / 128) (by omega)]
    split <;> simp <;> omega
  right
  rw [write_utf8_len_loop_step (v / 128) (by omega)]
  by_cases h2 : v < 2 ^ 14
  · left
    refine ⟨by omega, h2, ?_⟩
    rw [hz (v / 128 / 128) (by omega)]
    split <;> split <;> simp <;> omega
  right
  rw [write_utf8_len_loop_step (v / 128 / 128) (by omega)]
  by_cases h3 : v < 2 ^ 21
  · left
    refine ⟨by omega, h3, ?_⟩
    rw [hz (v / 128 / 128 / 128) (by omega)]
    split <;> split <;> split <;> simp <;> omega
  right
  rw [write_utf8_len_loop_step (v / 128 / 128 / 128) (by omega)]
  by_cases h4 : v < 2 ^ 28
  · left
    refine ⟨by omega, h4, ?_⟩
    rw [hz (v / 128 / 128 / 128 / 128) (by omega)]
    split <;> split <;> split <;> split <;> simp <;> omega
  right
  rw [write_utf8_len_loop_step (v / 128 / 128 / 128 / 128) (by omega)]
  refine ⟨by omega, ?_⟩
  rw [hz (v / 128 / 128 / 128 / 128 / 128) (by omega)]
  split <;> split <;> split <;> split <;> split <;> simp <;> omega


/-- C8 (basic varint).  For every `u32` value `v`, `write_utf8_len v` emits
`max 1 (ceil (bitlength v / 7))` bytes, between 1 and 5; every byte but the last has
bit 7 set and the last has it clear; every byte fits in 8 bits; the little-endian
base-128 sum of the low 7 bits of the bytes is `v`; `v = 0` is the single byte `0x00`;
and the varint reader recovers `v` and leaves what follows the varint unread. -/
theorem write_utf8_len_basic_varint (v : Nat) (hv : v < 2 ^ 32) :
    (write_utf8_len v).length = max 1 ((Nat.size v + 6) / 7)
    ∧ 1 ≤ (write_utf8_len v).length ∧ (write_utf8_len v).length ≤ 5
    ∧ (∀ i, i + 1 < (write_utf8_len v).length →
        ((write_utf8_len v).getD i 0).testBit 7 = true)
    ∧ (∀ i, i + 1 = (write_utf8_len v).length →
        ((write_utf8_len v).getD i 0).testBit 7 = false)
    ∧ (∀ b ∈ write_utf8_len v, b < 256)
    ∧ spec_leb_value (write_utf8_len v) = v
    ∧ (v = 0 → write_utf8_len v = [0x00])
    ∧ ∀ rest, spec_read_varint (write_utf8_len v ++ rest) = some (v, rest) := by
  have hsz : ∀ n, Nat.size v ≤ n ↔ v < 2 ^ n := fun n => Nat.size_le
  have hlt : ∀ n, n < Nat.size v ↔ 2 ^ n ≤ v := fun n => Nat.lt_size
  rcases write_utf8_len_cases v hv with
    ⟨h0, h⟩ | ⟨h0, h1, h⟩ | ⟨h0, h1, h⟩ | ⟨h0, h1, h⟩ | ⟨h0, h1, h⟩ | ⟨h0, h⟩
  · subst h0
    rw [h]
    refine ⟨by simp [Nat.size_zero], by simp, by simp, ?_, ?_, by simp, by simp [spec_leb_value],
      fun _ => rfl, fun rest => by simp [spec_read_varint]⟩
    · intro i hi; simp at hi
    · intro i hi
      have : i = 0 := by simpa using hi
      subst this; decide
  · rw [h]
    have s1 := (hsz 7).2 h1
    have s2 := (hlt 0).2 (by omega)
    refine ⟨?_, by simp, by simp, ?_, ?_, ?_, ?_, fun h => absurd h (by omega), ?_⟩
    · simp only [List.length_singleton]; omega
    · intro i hi; simp at hi
    · intro i hi
      have : i = 0 := by simpa using hi
      subst this
      simp [Nat.testBit_to_div_mod]; omega
    · intro b hb; simp at hb; omega
    · simp [spec_leb_value]; omega
    · intro rest
      have : v < 128 := by omega
      simp [spec_read_varint, this]
  · rw [h]
    have s1 := (hsz 14).2 h1
    have s2 := (hlt 7).2 h0
    refine ⟨?_, by simp, by simp, ?_, ?_, ?_, ?_, fun h => absurd h (by omega), ?_⟩
    · simp only [List.length_cons, List.length_nil]; omega
    · intro i hi
      simp only [List.length_cons, List.length_nil] at hi
      have hi2 : i < 1 := by omega
      interval_cases i; simp [Nat.testBit_to_div_mod]
    · intro i hi
      simp only [List.length_cons, List.length_nil] at hi
      have : i = 1 := by omega
      subst this
      simp [Nat.testBit_to_div_mod]; omega
    · intro b hb; simp at hb; omega
    · simp [spec_leb_value]; omega
    · intro rest
      have : v / 128 < 128 := by omega
      simp [spec_read_varint, this]; omega
  · rw [h]
    have s1 := (hsz 21).2 h1
    have s2 := (hlt 14).2 h0
    refine ⟨?_, by simp, by simp, ?_, ?_, ?_, ?_, fun h => absurd h (by omega), ?_⟩
    · simp only [List.length_cons, List.length_nil]; omega
    · intro i hi
      simp only [List.length_cons, List.length_nil] at hi
      have hi2 : i < 2 := by omega
      interval_cases i <;> simp [Nat.testBit_to_div_mod]
    · intro i hi
      simp only [List.length_cons, List.length_nil] at hi
      have : i = 2 := by omega
      subst this
      simp [Nat.testBit_to_div_mod]; omega
    · intro b hb; simp at hb; omega
    · simp [spec_leb_value]; omega
    · intro rest
      have : v / 128 / 128 < 128 := by omega
      simp [spec_read_varint, this]; omega
  · rw [h]
    have s1 := (hsz 28).2 h1
    have s2 := (hlt 21).2 h0
    refine ⟨?_, by simp, by simp, ?_, ?_, ?_, ?_, fun h => absurd h (by omega), ?_⟩
    · simp only [List.length_cons, List.length_nil]; omega
    · intro i hi
      simp only [List.length_cons, List.length_nil] at hi
      have hi2 : i < 3 := by omega
      interval_cases i <;> simp [Nat.testBit_to_div_mod]
    · intro i hi
      simp only [List.length_cons, List.length_nil] at hi
      have : i = 3 := by omega
      subst this
      simp [Nat.testBit_to_div_mod]; omega
    · intro b hb; simp at hb; omega
    · simp [spec_leb_value]; omega
    · intro rest
      have : v / 128 / 128 / 128 < 128 := by omega
      simp [spec_read_varint, this]; omega
  · rw [h]
    have s1 := (hsz 32).2 hv
    have s2 := (hlt 28).2 h0
    refine ⟨?_, by simp, by simp, ?_, ?_, ?_, ?_, fun h => absurd h (by omega), ?_⟩
    · simp only [List.length_cons, List.length_nil]; omega
    · intro i hi
      simp only [List.length_cons, List.length_nil] at hi
      have hi2 : i < 4 := by omega
      interval_cases i <;> simp [Nat.testBit_to_div_mod]
    · intro i hi
      simp only [List.length_cons, List.length_nil] at hi
      have : i = 4 := by omega
      subst this
      simp [Nat.testBit_to_div_mod]; omega
    · intro b hb; simp at hb; omega
    · simp [spec_leb_value]; omega
    · intro rest
      have : v / 128 / 128 / 128 / 128 < 128 := by omega
      simp [spec_read_varint, this]; omega

/-- Witness of C8 at `v = 300`, whose varint is `0xac 0x02`. -/
theorem write_utf8_len_basic_varint_witness :
    300 < 2 ^ 32 ∧ (write_utf8_len 300).length = max 1 ((Nat.size 300 + 6) / 7)
      ∧ spec_leb_value (write_utf8_len 300) = 300
      ∧ spec_read_varint (write_utf8_len 300 ++ []) = some (300, []) :=
  ⟨by decide, (write_utf8_len_basic_varint 300 (by decide)).1,
    (write_utf8_len_basic_varint 300 (by decide)).2.2.2.2.2.2.1,
    (write_utf8_len_basic_varint 300 (by decide)).2.2.2.2.2.2.2.2 []⟩

/-! ## The length cascade -/

/-- The overflow bytes of `write_long_len`, written out by range. -/
theorem write_long_len_cases (x : Nat) :
    (x < 15 ∧ write_long_len x = [])
    ∨ (15 ≤ x ∧ x < 270 ∧ write_long_len x = [x - 15])
    ∨ (270 ≤ x ∧ x < 65550 ∧ write_long_len x = [255, (x - 270) / 256, (x - 270) % 256])
    ∨ (65550 ≤ x ∧ write_long_len x
        = [255, 255, (x - 270) / 2 ^ 24 % 256, (x - 270) / 2 ^ 16 % 256,
            (x - 270) / 2 ^ 8 % 256, (x - 270) % 256]) := by
  unfold write_long_len
  by_cases h1 : x < 15
  · left; exact ⟨h1, by simp; omega⟩
  right
  by_cases h2 : x < 270
  · left
    refine ⟨by omega, h2, ?_⟩
    have : x - 15 < 255 := by omega
    simp [out, this, show 15 ≤ x by omega]; omega
  right
  have hn : ¬ (x - 15 < 255) := by omega
  have he : x - 15 - 255 = x - 270 := by omega
  by_cases h3 : x < 65550
  · left
    refine ⟨by omega, h3, ?_⟩
    have : x - 270 < 65280 := by omega
    simp [out, hn, he, this, Nat.shiftRight_eq_div_pow, show 15 ≤ x by omega]
    omega
  right
  refine ⟨by omega, ?_⟩
  have : ¬ (x - 270 < 65280) := by omega
  simp [out, hn, he, this, Nat.shiftRight_eq_div_pow, show 15 ≤ x by omega]

/-- The escape chain reads back what `write_long_len` wrote behind the capped nibble. -/
theorem spec_read_long_len_write (x : Nat) (hx : x < 2 ^ 32) (rest : List Nat) :
    spec_read_long_len (if x < 15 then x else 15) (write_long_len x ++ rest) = some (x, rest) := by
  rcases write_long_len_cases x with ⟨h0, h⟩ | ⟨h0, h1, h⟩ | ⟨h0, h1, h⟩ | ⟨h0, h⟩
  · rw [h]; simp [spec_read_long_len, h0]
  · rw [h]
    have : x - 15 < 255 := by omega
    simp [spec_read_long_len, show ¬ x < 15 by omega, this]; omega
  · rw [h]
    have : (x - 270) / 256 < 255 := by omega
    simp [spec_read_long_len, show ¬ x < 15 by omega, this]; omega
  · rw [h]
    simp [spec_read_long_len, show ¬ x < 15 by omega]; omega


/-- A value has 0, 1, 3 or 6 overflow bytes. -/
theorem write_long_len_length (x : Nat) :
    (write_long_len x).length = 0 ∨ (write_long_len x).length = 1
      ∨ (write_long_len x).length = 3 ∨ (write_long_len x).length = 6 := by
  rcases write_long_len_cases x with ⟨_, h⟩ | ⟨_, _, h⟩ | ⟨_, _, h⟩ | ⟨_, h⟩ <;> rw [h] <;> simp

/-- The nibble-pair byte of `write_len_pair` is `16 * nibble1 + nibble2`. -/
theorem write_len_pair_eq (len1 len2 min_len : Nat) :
    write_len_pair len1 len2 min_len
      = (16 * (if sub32 len1 min_len < 15 then sub32 len1 min_len else 15)
          + (if sub32 len2 min_len < 15 then sub32 len2 min_len else 15))
        :: (write_long_len (sub32 len1 min_len) ++ write_long_len (sub32 len2 min_len)) := by
  unfold write_len_pair
  have n1 : (if sub32 len1 min_len < 15 then sub32 len1 min_len else 15) < 16 := by
    split <;> omega
  have n2 : (if sub32 len2 min_len < 15 then sub32 len2 min_len else 15) < 16 := by
    split <;> omega
  simp only [out]
  generalize (if sub32 len1 min_len < 15 then sub32 len1 min_len else 15) = a at n1 ⊢
  generalize (if sub32 len2 min_len < 15 then sub32 len2 min_len else 15) = b at n2 ⊢
  have hab : 16 * a + b < 256 := by omega
  rw [Nat.mod_eq_of_lt (show a < 256 by omega), Nat.mod_eq_of_lt (show b < 256 by omega),
    shl4_or_eq _ _ n2]
  simp [Nat.mod_eq_of_lt hab]

/-- The pair reader undoes `write_len_pair` up to the `u32` wrap of the subtraction. -/
theorem spec_read_len_pair_write (len1 len2 min_len : Nat) (h1 : len1 < 2 ^ 32)
    (h2 : len2 < 2 ^ 32) (rest : List Nat) :
    spec_read_len_pair min_len (write_len_pair len1 len2 min_len ++ rest)
      = some (((sub32 len1 min_len + min_len) % 2 ^ 32,
          (sub32 len2 min_len + min_len) % 2 ^ 32), rest) := by
  have n1 : (if sub32 len1 min_len < 15 then sub32 len1 min_len else 15) < 16 := by
    split <;> omega
  have n2 : (if sub32 len2 min_len < 15 then sub32 len2 min_len else 15) < 16 := by
    split <;> omega
  rw [write_len_pair_eq, List.cons_append, List.append_assoc]
  unfold spec_read_len_pair
  simp only
  rw [show (16 * (if sub32 len1 min_len < 15 then sub32 len1 min_len else 15)
          + (if sub32 len2 min_len < 15 then sub32 len2 min_len else 15)) / 16
        = (if sub32 len1 min_len < 15 then sub32 len1 min_len else 15) by omega,
    show (16 * (if sub32 len1 min_len < 15 then sub32 len1 min_len else 15)
          + (if sub32 len2 min_len < 15 then sub32 len2 min_len else 15)) % 16
        = (if sub32 len2 min_len < 15 then sub32 len2 min_len else 15) by omega,
    spec_read_long_len_write _ (sub32_lt _ _ h1)]
  simp only
  rw [spec_read_long_len_write _ (sub32_lt _ _ h2)]

/-- C9 (length-cascade round trip).  For `u32` lengths `len1, len2 ≥ min_len`, the bytes
of `write_len_pair len1 len2 min_len`, followed by anything, are read back by the escape
chain as exactly `(len1, len2)` with the rest unread; two pairs with the same bytes are
the same pair; each value has 0, 1, 3 or 6 overflow bytes after the nibble-pair byte. -/
theorem write_len_pair_round_trip (len1 len2 min_len : Nat)
    (h1 : len1 < 2 ^ 32) (h2 : len2 < 2 ^ 32) (hm1 : min_len ≤ len1) (hm2 : min_len ≤ len2) :
    (∀ rest, spec_read_len_pair min_len (write_len_pair len1 len2 min_len ++ rest)
        = some ((len1, len2), rest))
    ∧ (∀ a b, a < 2 ^ 32 → b < 2 ^ 32 → min_len ≤ a → min_len ≤ b →
        write_len_pair a b min_len = write_len_pair len1 len2 min_len → a = len1 ∧ b = len2)
    ∧ (write_long_len (sub32 len1 min_len)).length ∈ [0, 1, 3, 6]
    ∧ (write_long_len (sub32 len2 min_len)).length ∈ [0, 1, 3, 6]
    ∧ (write_len_pair len1 len2 min_len).length
        = 1 + (write_long_len (sub32 len1 min_len)).length
            + (write_long_len (sub32 len2 min_len)).length := by
  have key : ∀ a b, a < 2 ^ 32 → b < 2 ^ 32 → min_len ≤ a → min_len ≤ b → ∀ rest,
      spec_read_len_pair min_len (write_len_pair a b min_len ++ rest) = some ((a, b), rest) := by
    intro a b ha hb hma hmb rest
    rw [spec_read_len_pair_write _ _ _ ha hb, sub32_of_le a min_len hma, sub32_of_le b min_len hmb,
      Nat.sub_add_cancel hma, Nat.sub_add_cancel hmb, Nat.mod_eq_of_lt ha, Nat.mod_eq_of_lt hb]
  refine ⟨key len1 len2 h1 h2 hm1 hm2, ?_, ?_, ?_, ?_⟩
  · intro a b ha hb hma hmb heq
    have e1 := key a b ha hb hma hmb []
    have e2 := key len1 len2 h1 h2 hm1 hm2 []
    rw [heq, e2] at e1
    simpa [eq_comm] using e1
  · have := write_long_len_length (sub32 len1 min_len)
    simp only [List.mem_cons, List.mem_singleton, List.mem_nil_iff, or_false]
    omega
  · have := write_long_len_length (sub32 len2 min_len)
    simp only [List.mem_cons, List.mem_singleton, List.mem_nil_iff, or_false]
    omega
  · rw [write_len_pair_eq]
    simp only [List.length_cons, List.length_append]
    omega

/-- Witness of C9 at the values 0, 14, 15, 269, 270, 65305 and 65551 of the
specification, with the bytes `write_len_pair` emits for them. -/
theorem write_len_pair_round_trip_witness :
    (spec_read_len_pair 0 (write_len_pair 0 14 0 ++ []) = some ((0, 14), [])
      ∧ spec_read_len_pair 0 (write_len_pair 15 269 0 ++ []) = some ((15, 269), [])
      ∧ spec_read_len_pair 0 (write_len_pair 270 65305 0 ++ []) = some ((270, 65305), [])
      ∧ spec_read_len_pair 0 (write_len_pair 65551 0 0 ++ []) = some ((65551, 0), []))
    ∧ write_len_pair 0 14 0 = [0x0e]
    ∧ write_len_pair 15 269 0 = [0xff, 0, 254]
    ∧ write_len_pair 270 65305 0 = [0xff, 255, 0, 0, 255, 0xfe, 0x0b]
    ∧ write_len_pair 65551 0 0 = [0xf0, 255, 255, 0, 0, 0xff, 0x01] :=
  ⟨⟨(write_len_pair_round_trip 0 14 0 (by decide) (by decide) (by decide) (by decide)).1 [],
    (write_len_pair_round_trip 15 269 0 (by decide) (by decide) (by decide) (by decide)).1 [],
    (write_len_pair_round_trip 270 65305 0 (by decide) (by decide) (by decide) (by decide)).1 [],
    (write_len_pair_round_trip 65551 0 0 (by decide) (by decide) (by decide) (by decide)).1 []⟩,
   by decide, by decide, by decide, by decide⟩

/-! ## The chunk generator -/

/-- The loop of `get_match_len` only moves forward, stops at `raw_len`, and every byte
it passed equals the byte at the same distance behind the match start. -/
theorem get_match_len_loop_spec (MAX_MATCH_LEN : Nat) (raw : List u8)
    (raw_len start_index fuel : Nat) :
    ∀ index match_index,
      index ≤ get_match_len_loop MAX_MATCH_LEN raw raw_len start_index fuel index match_index
      ∧ get_match_len_loop MAX_MATCH_LEN raw raw_len start_index fuel index match_index
          ≤ max index raw_len
      ∧ ∀ k, index + k
            < get_match_len_loop MAX_MATCH_LEN raw raw_len start_index fuel index match_index →
          raw.getD (index + k) 0 = raw.getD (match_index + k) 0 := by
  induction fuel with
  | zero =>
    intro index match_index
    simp [get_match_len_loop]
  | succ f ih =>
    intro index match_index
    rw [get_match_len_loop]
    split
    · rename_i hc
      obtain ⟨h1, h2, h3⟩ := ih (index + 1) (match_index + 1)
      refine ⟨by omega, by omega, ?_⟩
      intro k hk
      cases k with
      | zero => simpa using hc.2.2
      | succ k =>
        have := h3 k (by omega)
        rw [show index + (k + 1) = index + 1 + k by omega,
          show match_index + (k + 1) = match_index + 1 + k by omega]
        exact this
    · simp

/-- A positive result of `get_match_len` is a genuine common run behind `index`. -/
theorem get_match_len_spec (MAX_MATCH_LEN : Nat) (raw : List u8)
    (raw_len index match_index : Nat)
    (hpos : 0 < get_match_len MAX_MATCH_LEN raw raw_len index match_index) :
    match_index < index
    ∧ index + get_match_len MAX_MATCH_LEN raw raw_len index match_index ≤ raw_len
    ∧ ∀ k, k < get_match_len MAX_MATCH_LEN raw raw_len index match_index →
        raw.getD (index + k) 0 = raw.getD (match_index + k) 0 := by
  unfold get_match_len at hpos ⊢
  by_cases hle : index ≤ match_index
  · simp [hle] at hpos
  · rw [if_neg hle] at hpos ⊢
    obtain ⟨h1, h2, h3⟩ :=
      get_match_len_loop_spec MAX_MATCH_LEN raw raw_len index (raw_len - index) index match_index
    refine ⟨by omega, by omega, ?_⟩
    intro k hk
    exact h3 k (by omega)

/-- The loop of `get_match_len` gives the same result for every fuel of at least
`raw_len - index`: with that much fuel it stops at its own exit test. -/
theorem get_match_len_loop_fuel (MAX_MATCH_LEN : Nat) (raw : List u8)
    (raw_len start_index fuel : Nat) :
    ∀ fuel2 index match_index, raw_len - index ≤ fuel → raw_len - index ≤ fuel2 →
      get_match_len_loop MAX_MATCH_LEN raw raw_len start_index fuel index match_index
        = get_match_len_loop MAX_MATCH_LEN raw raw_len start_index fuel2 index match_index := by
  induction fuel with
  | zero =>
    intro fuel2 index match_index h1 _
    cases fuel2 with
    | zero => rfl
    | succ g =>
      rw [get_match_len_loop, get_match_len_loop, if_neg (fun hc => by omega)]
  | succ f ih =>
    intro fuel2 index match_index h1 h2
    rw [get_match_len_loop]
    split
    · rename_i hc
      obtain ⟨g, rfl⟩ : ∃ g, fuel2 = g + 1 := ⟨fuel2 - 1, by omega⟩
      rw [get_match_len_loop, if_pos hc]
      exact ih g (index + 1) (match_index + 1) (by omega) (by omega)
    · rename_i hc
      cases fuel2 with
      | zero => rfl
      | succ g => rw [get_match_len_loop, if_neg hc]

/-- The skip loop ends at `start_lit_index` when it starts at or before it. -/
theorem skip_loop_index (raw : List u8) (start_lit_index fuel : Nat) :
    ∀ table index, index ≤ start_lit_index → start_lit_index - index ≤ fuel →
      (skip_loop raw start_lit_index fuel table index).2 = start_lit_index := by
  induction fuel with
  | zero =>
    intro table index h1 h2
    simp [skip_loop]; omega
  | succ f ih =>
    intro table index h1 h2
    rw [skip_loop]
    split
    · exact ih _ _ (by omega) (by omega)
    · simp; omega


/-- Appending a chunk leaves the positions of the earlier chunks as they were. -/
theorem chunk_pos_append_lt (ls ms : List Nat) (l m j : Nat) (h1 : j < ls.length)
    (h2 : j < ms.length) : chunk_pos (ls ++ [l]) (ms ++ [m]) j = chunk_pos ls ms j := by
  unfold chunk_pos
  rw [List.take_append_of_le_length (by omega), List.take_append_of_le_length (by omega),
    List.getD_append _ _ _ _ h1]

/-- The position of an appended chunk: everything recorded before it, plus its literals. -/
theorem chunk_pos_append_eq (ls ms : List Nat) (l m : Nat) (h : ms.length = ls.length) :
    chunk_pos (ls ++ [l]) (ms ++ [m]) ls.length = ls.sum + ms.sum + l := by
  unfold chunk_pos
  rw [List.take_append_of_le_length (by omega), List.take_append_of_le_length (by omega),
    List.take_length, ← h, List.take_length, h,
    List.getD_append_right _ _ _ _ (by omega)]
  simp

/-- The invariant holds on entry to the main loop. -/
theorem loopInv_init (MIN_MATCH_LEN : Nat) (raw : List u8) (raw_len : Nat) (table : Nat → Nat) :
    LoopInv MIN_MATCH_LEN raw raw_len (init table) 0 0 where
  start_le := by omega
  index_le := by omega
  len_lit := rfl
  len_match := rfl
  len_off := rfl
  len_lits := rfl
  n_lits_eq := rfl
  covered := Or.inl rfl
  chunks_ok := by intro j hj; simp [init] at hj

/-- While the loop runs, the chunk that `add_chunk` would append at scan position `index`
gets that very position from `chunk_pos`. -/
theorem chunk_pos_at_record (MIN_MATCH_LEN : Nat) (raw : List u8) (raw_len : Nat)
    (st : Lz4pjCState) (start_lit_index index match_len : Nat)
    (inv : LoopInv MIN_MATCH_LEN raw raw_len st start_lit_index index)
    (hc : index < raw_len - 1) :
    chunk_pos (st.lit_lens ++ [sub32 index start_lit_index]) (st.match_lens ++ [match_len])
      st.n_chunks = index := by
  have hp := chunk_pos_append_eq st.lit_lens st.match_lens (sub32 index start_lit_index)
    match_len (by rw [inv.len_match, inv.len_lit])
  rw [inv.len_lit] at hp
  rw [hp, sub32_of_le _ _ inv.start_le]
  have hs := inv.start_le
  rcases inv.covered with h | h
  · omega
  · omega

/-- The main loop keeps `LoopInv` and, given enough fuel, ends at `index = raw_len - 1`. -/
theorem generate_loop_inv (MIN_MATCH_LEN MAX_MATCH_LEN : Nat) (raw : List u8) (raw_len : Nat)
    (hlen : raw_len < 2 ^ 32) (hmin : 1 ≤ MIN_MATCH_LEN) (fuel : Nat) :
    ∀ st start_lit_index index,
      LoopInv MIN_MATCH_LEN raw raw_len st start_lit_index index →
      raw_len - 1 - index ≤ fuel →
      LoopInv MIN_MATCH_LEN raw raw_len
        (generate_loop MIN_MATCH_LEN MAX_MATCH_LEN raw raw_len fuel st start_lit_index index).1
        (generate_loop MIN_MATCH_LEN MAX_MATCH_LEN raw raw_len fuel st start_lit_index index).2
        (raw_len - 1) := by
  induction fuel with
  | zero =>
    intro st start index inv hf
    have : index = raw_len - 1 := by have := inv.index_le; omega
    simpa [generate_loop, this] using inv
  | succ f ih =>
    intro st start index inv hf
    rw [generate_loop]
    by_cases hc : index < raw_len - 1
    · rw [if_pos hc]
      simp only
      split
      · rename_i hm
        obtain ⟨g1, g2, g3⟩ := get_match_len_spec MAX_MATCH_LEN raw raw_len index
          (st.last_bytepair_indexes (get_byte_pair raw index)) (by omega)
        generalize get_match_len MAX_MATCH_LEN raw raw_len index
          (st.last_bytepair_indexes (get_byte_pair raw index)) = m at hm g2 g3
        generalize st.last_bytepair_indexes (get_byte_pair raw index) = p at g1 g3
        have hs := inv.start_le
        have hskip : ∀ table, (skip_loop raw (min (index + m) (raw_len - 1)) raw_len table
            (index + 1)).2 = min (index + m) (raw_len - 1) := fun table =>
          skip_loop_index raw _ raw_len table (index + 1) (by omega) (by omega)
        apply ih
        · simp only [add_chunk, hskip]
          have hcov : st.lit_lens.sum + st.match_lens.sum = start := by
            rcases inv.covered with h | h
            · exact h
            · omega
          have e1 : sub32 index start = index - start := sub32_of_le _ _ hs
          have e2 : sub32 index p = index - p := sub32_of_le _ _ (by omega)
          refine ⟨le_refl _, by omega, by simp [inv.len_lit], by simp [inv.len_match],
            by simp [inv.len_off], inv.len_lits, ?_, ?_, ?_⟩
          · simp only [List.sum_append, List.sum_cons, List.sum_nil, e1]
            have := inv.n_lits_eq
            omega
          · simp only [List.sum_append, List.sum_cons, List.sum_nil, e1]
            by_cases hend : index + m ≤ raw_len - 1
            · left; omega
            · right; omega
          · intro j hj
            replace hj : j < st.n_chunks + 1 := hj
            by_cases hjl : j < st.n_chunks
            · have := inv.chunks_ok j hjl
              rw [chunk_pos_append_lt _ _ _ _ _ (by rw [inv.len_lit]; exact hjl)
                  (by rw [inv.len_match]; exact hjl),
                List.getD_append _ _ _ _ (by rw [inv.len_match]; exact hjl),
                List.getD_append _ _ _ _ (by rw [inv.len_off]; exact hjl)]
              exact this
            · have hje : j = st.n_chunks := by omega
              subst hje
              have hp := chunk_pos_append_eq st.lit_lens st.match_lens (sub32 index start) m
                (by rw [inv.len_match, inv.len_lit])
              rw [inv.len_lit] at hp
              rw [hp, List.getD_append_right _ _ _ _ (by rw [inv.len_match]),
                List.getD_append_right _ _ _ _ (by rw [inv.len_off]), inv.len_match, inv.len_off]
              simp only [Nat.sub_self, List.getD_cons_zero, e1, e2]
              have hi : st.lit_lens.sum + st.match_lens.sum + (index - start) = index := by omega
              rw [hi]
              refine ⟨by omega, by omega, hm, g2, ?_⟩
              intro k hk
              rw [show index - (index - p) = p by omega]
              exact g3 k hk
        · rw [hskip]; omega
      · apply ih
        · have hs := inv.start_le
          refine ⟨by omega, by omega, inv.len_lit, inv.len_match, inv.len_off,
            by simp [inv.len_lits], ?_, ?_, inv.chunks_ok⟩
          · have := inv.n_lits_eq
            simp only
            omega
          · rcases inv.covered with h | h
            · exact Or.inl h
            · omega
        · omega
    · rw [if_neg hc]
      have : index = raw_len - 1 := by have := inv.index_le; omega
      simpa [this] using inv


/-- For a non-empty input `generate_chunks` is the main loop followed by the trailing
literal: the final literal run from `start_lit_index` to the end of the input. -/
theorem generate_chunks_nonempty (MIN_MATCH_LEN MAX_MATCH_LEN : Nat) (table : Nat → Nat)
    (raw : List u8) (raw_len : Nat) (hpos : 0 < raw_len) (hlen : raw_len < 2 ^ 32)
    (hmin : 1 ≤ MIN_MATCH_LEN) :
    ∃ st1 start_lit_index,
      LoopInv MIN_MATCH_LEN raw raw_len st1 start_lit_index (raw_len - 1)
      ∧ generate_chunks MIN_MATCH_LEN MAX_MATCH_LEN (init table) raw raw_len
        = { st1 with
            trailing_lit_len := raw_len - start_lit_index
            lits := st1.lits ++ [raw.getD (raw_len - 1) 0]
            n_lits := st1.n_lits + 1 } := by
  have inv := generate_loop_inv MIN_MATCH_LEN MAX_MATCH_LEN raw raw_len hlen hmin raw_len
    (init table) 0 0 (loopInv_init MIN_MATCH_LEN raw raw_len table) (by omega)
  refine ⟨_, _, inv, ?_⟩
  have hs := inv.start_le
  have e : sub32 raw_len
      (generate_loop MIN_MATCH_LEN MAX_MATCH_LEN raw raw_len raw_len (init table) 0 0).2
      = raw_len
        - (generate_loop MIN_MATCH_LEN MAX_MATCH_LEN raw raw_len raw_len (init table) 0 0).2 :=
    sub32_of_le _ _ (by omega)
  unfold generate_chunks generate_chunks_finish
  rw [if_neg (by omega)]
  simp only [e]
  rw [if_pos (by omega)]

/-- What the chunks and the trailing literals of `generate_chunks` cover: the whole input,
or, when the last match runs to the end of the input, the input and its last byte once
more. -/
theorem generate_chunks_coverage (MIN_MATCH_LEN MAX_MATCH_LEN : Nat) (table : Nat → Nat)
    (raw : List u8) (hlen : raw.length < 2 ^ 32) (hmin : 1 ≤ MIN_MATCH_LEN)
    (st : Lz4pjCState)
    (hst : st = generate_chunks MIN_MATCH_LEN MAX_MATCH_LEN (init table) raw raw.length) :
    st.lit_lens.sum + st.match_lens.sum + st.trailing_lit_len = raw.length
    ∨ (st.lit_lens.sum + st.match_lens.sum = raw.length ∧ st.trailing_lit_len = 1
        ∧ 0 < st.n_chunks) := by
  by_cases h0 : raw.length = 0
  · left
    rw [hst, h0]
    simp [generate_chunks, init]
  · obtain ⟨st1, start, inv, e⟩ := generate_chunks_nonempty MIN_MATCH_LEN MAX_MATCH_LEN table raw
      raw.length (by omega) hlen hmin
    rw [e] at hst
    subst hst
    have h2 := inv.start_le
    rcases inv.covered with h | ⟨h3, h4, _, h5⟩
    · left
      simp only
      omega
    · right
      refine ⟨h3, ?_, h5⟩
      simp only
      omega

/-- C3 (chunk well-formedness).  For every input shorter than `2 ^ 32` bytes, every
initial content of the byte-pair table and every pass with `MIN_MATCH_LEN ≥ 1` (the three
passes of the program have 4, 3 and 2), chunk `j` of `generate_chunks`, recorded at scan
position `i`, has `1 ≤ match_offset ≤ i`, `match_len ≥ MIN_MATCH_LEN`,
`i + match_len ≤ raw_len`, and `raw[i + k] = raw[i - match_offset + k]` for every
`k < match_len`.  The position `i` is `chunk_pos`: the literal and match lengths of the
chunks before `j` plus the literal length of `j`. -/
theorem generate_chunks_chunk_well_formed (MIN_MATCH_LEN MAX_MATCH_LEN : Nat)
    (table : Nat → Nat) (raw : List u8) (hlen : raw.length < 2 ^ 32)
    (hmin : 1 ≤ MIN_MATCH_LEN) (st : Lz4pjCState)
    (hst : st = generate_chunks MIN_MATCH_LEN MAX_MATCH_LEN (init table) raw raw.length)
    (j : Nat) (hj : j < st.n_chunks) (i : Nat) (hi : i = chunk_pos st.lit_lens st.match_lens j) :
    j < st.lit_lens.length ∧ j < st.match_lens.length ∧ j < st.match_offsets.length
    ∧ 1 ≤ st.match_offsets.getD j 0
    ∧ st.match_offsets.getD j 0 ≤ i
    ∧ MIN_MATCH_LEN ≤ st.match_lens.getD j 0
    ∧ i + st.match_lens.getD j 0 ≤ raw.length
    ∧ ∀ k, k < st.match_lens.getD j 0 →
        raw.getD (i + k) 0 = raw.getD (i - st.match_offsets.getD j 0 + k) 0 := by
  subst hi
  by_cases h0 : raw.length = 0
  · rw [hst, h0] at hj
    simp [generate_chunks, init] at hj
  · obtain ⟨st1, start, inv, e⟩ := generate_chunks_nonempty MIN_MATCH_LEN MAX_MATCH_LEN table raw
      raw.length (by omega) hlen hmin
    rw [e] at hst
    subst hst
    replace hj : j < st1.n_chunks := hj
    obtain ⟨c1, c2, c3, c4, c5⟩ := inv.chunks_ok j hj
    exact ⟨by rw [inv.len_lit]; exact hj, by rw [inv.len_match]; exact hj,
      by rw [inv.len_off]; exact hj, c1, c2, c3, c4, c5⟩

/-- Witness of C3: the wide pass on `1 2 3 4 5 1 2 3 4 5 6` records one chunk at scan
position 5, a copy of 5 bytes from 5 bytes back. -/
theorem generate_chunks_chunk_well_formed_witness :
    ([1, 2, 3, 4, 5, 1, 2, 3, 4, 5, 6] : List u8).length < 2 ^ 32
    ∧ 0 < (generate_chunks 4 0 (init fun _ => 0) [1, 2, 3, 4, 5, 1, 2, 3, 4, 5, 6] 11).n_chunks
    ∧ 5 = chunk_pos
        (generate_chunks 4 0 (init fun _ => 0) [1, 2, 3, 4, 5, 1, 2, 3, 4, 5, 6] 11).lit_lens
        (generate_chunks 4 0 (init fun _ => 0) [1, 2, 3, 4, 5, 1, 2, 3, 4, 5, 6] 11).match_lens 0
    ∧ 1 ≤ (generate_chunks 4 0 (init fun _ => 0)
        [1, 2, 3, 4, 5, 1, 2, 3, 4, 5, 6] 11).match_offsets.getD 0 0
    ∧ (generate_chunks 4 0 (init fun _ => 0)
        [1, 2, 3, 4, 5, 1, 2, 3, 4, 5, 6] 11).match_offsets.getD 0 0 ≤ 5 :=
  ⟨by decide, by decide, by decide,
    (generate_chunks_chunk_well_formed 4 0 (fun _ => 0) [1, 2, 3, 4, 5, 1, 2, 3, 4, 5, 6]
      (by decide) (by decide) _ rfl 0 (by decide) 5 (by decide)).2.2.2.1,
    (generate_chunks_chunk_well_formed 4 0 (fun _ => 0) [1, 2, 3, 4, 5, 1, 2, 3, 4, 5, 6]
      (by decide) (by decide) _ rfl 0 (by decide) 5 (by decide)).2.2.2.2.1⟩

/-- C4 (literal-buffer length).  For every input shorter than `2 ^ 32` bytes, every
initial table and every pass with `MIN_MATCH_LEN ≥ 1`, after `generate_chunks` the counter
`n_lits` is the sum of `lit_lens` over the `n_chunks` chunks plus `trailing_lit_len`, and
it is the number of bytes in the literal buffer. -/
theorem generate_chunks_n_lits (MIN_MATCH_LEN MAX_MATCH_LEN : Nat) (table : Nat → Nat)
    (raw : List u8) (hlen : raw.length < 2 ^ 32) (hmin : 1 ≤ MIN_MATCH_LEN)
    (st : Lz4pjCState)
    (hst : st = generate_chunks MIN_MATCH_LEN MAX_MATCH_LEN (init table) raw raw.length) :
    st.n_lits = st.lit_lens.sum + st.trailing_lit_len
    ∧ st.lit_lens.length = st.n_chunks
    ∧ st.lits.length = st.n_lits := by
  by_cases h0 : raw.length = 0
  · rw [hst, h0]
    simp [generate_chunks, init]
  · obtain ⟨st1, start, inv, e⟩ := generate_chunks_nonempty MIN_MATCH_LEN MAX_MATCH_LEN table raw
      raw.length (by omega) hlen hmin
    rw [e] at hst
    subst hst
    have h1 := inv.n_lits_eq
    have h2 := inv.start_le
    refine ⟨?_, inv.len_lit, ?_⟩
    · simp only
      omega
    · simp [inv.len_lits]

/-- Witness of C4: the 3-byte pass on `7 8 9 7 8 9 1 2` has one chunk with three
literals before it, two trailing literals and five bytes in the literal buffer. -/
theorem generate_chunks_n_lits_witness :
    ([7, 8, 9, 7, 8, 9, 1, 2] : List u8).length < 2 ^ 32
    ∧ (generate_chunks 3 3 (init fun _ => 0) [7, 8, 9, 7, 8, 9, 1, 2] 8).n_lits
      = (generate_chunks 3 3 (init fun _ => 0) [7, 8, 9, 7, 8, 9, 1, 2] 8).lit_lens.sum
        + (generate_chunks 3 3 (init fun _ => 0) [7, 8, 9, 7, 8, 9, 1, 2] 8).trailing_lit_len
    ∧ (generate_chunks 3 3 (init fun _ => 0) [7, 8, 9, 7, 8, 9, 1, 2] 8).n_lits = 5 :=
  ⟨by decide,
    (generate_chunks_n_lits 3 3 (fun _ => 0) [7, 8, 9, 7, 8, 9, 1, 2] (by decide) (by decide)
      _ rfl).1,
    by decide⟩

/-- C7, the claim as stated fails: the wide pass on the three bytes `1 2 3` finds no match
and leaves `trailing_lit_len = 3`, neither 0 nor 1. -/
theorem trailing_lit_len_not_zero_or_one :
    (generate_chunks MIN_MAIN_PASS_MATCH_LEN MAX_MAIN_PASS_MATCH_LEN (init fun _ => 0)
        [1, 2, 3] 3).trailing_lit_len = 3
    ∧ ¬ ((generate_chunks MIN_MAIN_PASS_MATCH_LEN MAX_MAIN_PASS_MATCH_LEN (init fun _ => 0)
          [1, 2, 3] 3).trailing_lit_len = 0
        ∨ (generate_chunks MIN_MAIN_PASS_MATCH_LEN MAX_MAIN_PASS_MATCH_LEN (init fun _ => 0)
          [1, 2, 3] 3).trailing_lit_len = 1) := by
  decide

/-- C7 as amended.  In the wide pass, for every input shorter than `2 ^ 32` bytes and
every initial table, `trailing_lit_len` is at most `raw_len`; it is 0 for the empty
input; when the chunks stop short of the end of the input it is the whole literal run
behind the last chunk, `raw_len` minus the literal and match lengths of all chunks; and
it is `raw_len` when no chunk is recorded. -/
theorem generate_chunks_trailing_lit_len (table : Nat → Nat) (raw : List u8)
    (hlen : raw.length < 2 ^ 32) (st : Lz4pjCState)
    (hst : st = generate_chunks MIN_MAIN_PASS_MATCH_LEN MAX_MAIN_PASS_MATCH_LEN (init table) raw
      raw.length) :
    st.trailing_lit_len ≤ raw.length
    ∧ (raw.length = 0 → st.trailing_lit_len = 0)
    ∧ (st.lit_lens.sum + st.match_lens.sum < raw.length →
        st.trailing_lit_len = raw.length - (st.lit_lens.sum + st.match_lens.sum))
    ∧ (st.n_chunks = 0 → st.trailing_lit_len = raw.length) := by
  by_cases h0 : raw.length = 0
  · rw [hst, h0]
    simp [generate_chunks, init]
  · obtain ⟨st1, start, inv, e⟩ := generate_chunks_nonempty MIN_MAIN_PASS_MATCH_LEN
      MAX_MAIN_PASS_MATCH_LEN table raw raw.length (by omega) hlen (by decide)
    rw [e] at hst
    subst hst
    have h2 := inv.start_le
    have h3 := inv.covered
    have h4 := inv.len_lit
    have h5 := inv.len_match
    refine ⟨by simp only; omega, fun h => absurd h h0, ?_, ?_⟩
    · simp only
      intro hlt
      omega
    · simp only
      intro hn
      rw [hn] at h4 h5
      have e1 : st1.lit_lens = [] := List.length_eq_zero.mp h4
      have e2 : st1.match_lens = [] := List.length_eq_zero.mp h5
      rw [e1, e2] at h3
      simp only [List.sum_nil] at h3
      omega

/-- Witness of C7 as amended: on `1 2 3 4 1 2 3 4 9 8 7` the wide pass records one chunk
covering bytes 4 to 7, and the three bytes behind it are the trailing literals. -/
theorem generate_chunks_trailing_lit_len_witness :
    ([1, 2, 3, 4, 1, 2, 3, 4, 9, 8, 7] : List u8).length < 2 ^ 32
    ∧ (generate_chunks MIN_MAIN_PASS_MATCH_LEN MAX_MAIN_PASS_MATCH_LEN (init fun _ => 0)
        [1, 2, 3, 4, 1, 2, 3, 4, 9, 8, 7] 11).trailing_lit_len ≤ 11
    ∧ (generate_chunks MIN_MAIN_PASS_MATCH_LEN MAX_MAIN_PASS_MATCH_LEN (init fun _ => 0)
        [1, 2, 3, 4, 1, 2, 3, 4, 9, 8, 7] 11).trailing_lit_len = 3 :=
  ⟨by decide,
    (generate_chunks_trailing_lit_len (fun _ => 0) [1, 2, 3, 4, 1, 2, 3, 4, 9, 8, 7] (by decide)
      _ rfl).1,
    by decide⟩

/-! ## The writer returns when there is a chunk -/

/-- With at least one length the loop of `write_lens` reaches its exit test: from an even
`i` it has a result as soon as the fuel exceeds the number of pairs left. -/
theorem write_lens_loop_some (lens : List Nat) (n_lens min_len : Nat)
    (hn : lens.length = n_lens) (hpos : 1 ≤ n_lens) (h32 : n_lens < 2 ^ 32) (fuel : Nat) :
    ∀ i, i ≤ n_lens → (n_lens - i) / 2 < fuel →
      ∃ bytes, write_lens_loop lens n_lens min_len fuel i = some bytes := by
  induction fuel with
  | zero => intro i _ h; omega
  | succ f ih =>
    intro i hi hf
    rw [write_lens_loop, sub32_of_le _ _ hpos]
    by_cases hc : i < n_lens - 1
    · rw [if_pos hc]
      have h1 : i < lens.length := by omega
      have h2 : i + 1 < lens.length := by omega
      rw [List.getElem?_eq_getElem h1, List.getElem?_eq_getElem h2]
      simp only
      rw [Nat.mod_eq_of_lt (by omega)]
      obtain ⟨rest, hr⟩ := ih (i + 2) (by omega) (by omega)
      rw [hr]
      exact ⟨_, rfl⟩
    · rw [if_neg hc]
      exact ⟨_, rfl⟩

/-- `write_lens` has a result for every array of at least one length. -/
theorem write_lens_some (lens : List Nat) (n_lens min_len : Nat)
    (hn : lens.length = n_lens) (hpos : 1 ≤ n_lens) (h32 : n_lens < 2 ^ 32) :
    ∃ bytes, write_lens lens n_lens min_len = some bytes := by
  obtain ⟨pairs, hp⟩ := write_lens_loop_some lens n_lens min_len hn hpos h32 (n_lens + 1) 0
    (by omega) (by omega)
  unfold write_lens
  rw [hp]
  simp only
  split
  · rw [List.getElem?_eq_getElem (by omega)]
    exact ⟨_, rfl⟩
  · exact ⟨_, rfl⟩

/-- The loop of `write_match_offsets` has a result when every offset slot was written. -/
theorem write_match_offsets_loop_some (MAX_MATCH_OFFSET : Nat) (offsets : List Nat)
    (n_offsets : Nat) (hn : offsets.length = n_offsets) (fuel : Nat) :
    ∀ i, n_offsets - i < fuel →
      ∃ bytes, write_match_offsets_loop MAX_MATCH_OFFSET offsets n_offsets fuel i = some bytes := by
  induction fuel with
  | zero => intro i h; omega
  | succ f ih =>
    intro i hf
    rw [write_match_offsets_loop]
    by_cases hc : i < n_offsets
    · rw [if_pos hc, List.getElem?_eq_getElem (by omega)]
      simp only
      obtain ⟨rest, hr⟩ := ih (i + 1) (by omega)
      rw [hr]
      exact ⟨_, rfl⟩
    · rw [if_neg hc]
      exact ⟨_, rfl⟩

/-- `write_compressed` has a result for every state with at least one chunk whose arrays
hold `n_chunks` slots each. -/
theorem write_compressed_some (MIN_MATCH_LEN MAX_MATCH_LEN MAX_MATCH_OFFSET : Nat)
    (st : Lz4pjCState) (hpos : 1 ≤ st.n_chunks) (h32 : st.n_chunks < 2 ^ 32)
    (h1 : st.lit_lens.length = st.n_chunks) (h2 : st.match_lens.length = st.n_chunks)
    (h3 : st.match_offsets.length = st.n_chunks) :
    ∃ bytes, write_compressed MIN_MATCH_LEN MAX_MATCH_LEN MAX_MATCH_OFFSET st = some bytes := by
  obtain ⟨b1, e1⟩ := write_lens_some st.lit_lens st.n_chunks 0 h1 hpos h32
  obtain ⟨b2, e2⟩ := write_lens_some st.match_lens st.n_chunks MIN_MATCH_LEN h2 hpos h32
  obtain ⟨b3, e3⟩ := write_match_offsets_loop_some MAX_MATCH_OFFSET st.match_offsets st.n_chunks
    h3 (st.n_chunks + 1) 0 (by omega)
  unfold write_compressed write_match_offsets
  rw [e1, e2, e3]
  by_cases hne : MIN_MATCH_LEN ≠ MAX_MATCH_LEN
  · rw [if_pos hne]
    exact ⟨_, rfl⟩
  · rw [if_neg hne]
    exact ⟨_, rfl⟩

/-! ## Inputs on which the code departs from the specification -/

/-- At `index = 0` nothing lies behind the scan: `get_match_len` returns 0 whatever the
table holds. -/
theorem get_match_len_index_zero (MAX_MATCH_LEN : Nat) (raw : List u8) (raw_len p : Nat) :
    get_match_len MAX_MATCH_LEN raw raw_len 0 p = 0 := by
  simp [get_match_len]

/-- When the byte at `index` occurs nowhere before `index`, `get_match_len` returns 0
whatever the table holds. -/
theorem get_match_len_fresh_byte (MAX_MATCH_LEN : Nat) (raw : List u8) (raw_len index p : Nat)
    (h : ∀ q, q < index → raw.getD index 0 ≠ raw.getD q 0) :
    get_match_len MAX_MATCH_LEN raw raw_len index p = 0 := by
  unfold get_match_len
  split
  · rfl
  · rename_i hp
    have hne := h p (by omega)
    cases hf : raw_len - index with
    | zero => simp [get_match_len_loop]
    | succ f =>
      rw [get_match_len_loop, if_neg (fun hc => hne hc.2.2)]
      exact Nat.sub_self index

/-- A turn of the main loop in which `get_match_len` stays below `MIN_MATCH_LEN`: the
byte at `index` goes to the literal buffer and the scan moves on by one. -/
theorem generate_loop_literal_turn (MIN_MATCH_LEN MAX_MATCH_LEN : Nat) (raw : List u8)
    (raw_len fuel : Nat) (st : Lz4pjCState) (start_lit_index index : Nat)
    (hc : index < raw_len - 1)
    (hm : get_match_len MAX_MATCH_LEN raw raw_len index
      (st.last_bytepair_indexes (get_byte_pair raw index)) < MIN_MATCH_LEN) :
    generate_loop MIN_MATCH_LEN MAX_MATCH_LEN raw raw_len (fuel + 1) st start_lit_index index
      = generate_loop MIN_MATCH_LEN MAX_MATCH_LEN raw raw_len fuel
          { st with
            last_bytepair_indexes :=
              set_index st.last_bytepair_indexes (get_byte_pair raw index) index
            lits := st.lits ++ [raw.getD index 0]
            n_lits := st.n_lits + 1 } start_lit_index (index + 1) := by
  rw [generate_loop, if_pos hc]
  simp only
  rw [if_neg (by omega)]

/-- On an input of at least two bytes the first turn of `generate_chunks` stores index 0
for the first byte pair and makes the first byte a literal, whatever the table holds. -/
theorem generate_chunks_first_turn (MIN_MATCH_LEN MAX_MATCH_LEN : Nat) (table : Nat → Nat)
    (raw : List u8) (raw_len fuel : Nat) (hmin : 1 ≤ MIN_MATCH_LEN) (hlen : raw_len = fuel + 2) :
    generate_chunks MIN_MATCH_LEN MAX_MATCH_LEN (init table) raw raw_len
      = generate_chunks_finish raw raw_len
          (generate_loop MIN_MATCH_LEN MAX_MATCH_LEN raw raw_len (fuel + 1)
            { init table with
              last_bytepair_indexes := set_index table (get_byte_pair raw 0) 0
              lits := [raw.getD 0 0]
              n_lits := 1 } 0 1) := by
  subst hlen
  unfold generate_chunks
  rw [if_neg (by omega), generate_loop_literal_turn _ _ _ _ _ _ _ _ (by omega)
    (by rw [get_match_len_index_zero]; omega)]
  rfl

/-- `write_compressed` reads the chunk arrays, the literal buffer and the counters, not
the byte-pair table. -/
theorem write_compressed_congr (MIN_MATCH_LEN MAX_MATCH_LEN MAX_MATCH_OFFSET : Nat)
    (st1 st2 : Lz4pjCState)
    (h : (st1.lit_lens, st1.match_lens, st1.match_offsets, st1.n_chunks, st1.trailing_lit_len,
        st1.lits, st1.n_lits)
      = (st2.lit_lens, st2.match_lens, st2.match_offsets, st2.n_chunks, st2.trailing_lit_len,
        st2.lits, st2.n_lits)) :
    write_compressed MIN_MATCH_LEN MAX_MATCH_LEN MAX_MATCH_OFFSET st1
      = write_compressed MIN_MATCH_LEN MAX_MATCH_LEN MAX_MATCH_OFFSET st2 := by
  simp only [Prod.mk.injEq] at h
  obtain ⟨h1, h2, h3, h4, h5, h6, h7⟩ := h
  unfold write_compressed
  rw [h1, h2, h3, h4, h5, h6, h7]


/-- Reading the table at the key just written. -/
theorem set_index_same (table : Nat → Nat) (byte_pair index key : Nat) (h : key = byte_pair) :
    set_index table byte_pair index key = index :=
  if_pos h

/-- Reading the table at another key than the one just written. -/
theorem set_index_other (table : Nat → Nat) (byte_pair index key : Nat) (h : key ≠ byte_pair) :
    set_index table byte_pair index key = table key :=
  if_neg h

/-- A turn of the main loop in which the table holds `p` for the byte pair at `index` and
`get_match_len` returns `m ≥ MIN_MATCH_LEN`: the chunk is recorded and the scan resumes at
the end of the match, or at the last byte when the match runs to the end of the input. -/
theorem generate_loop_match_turn (MIN_MATCH_LEN MAX_MATCH_LEN : Nat) (raw : List u8)
    (raw_len fuel : Nat) (st : Lz4pjCState) (start_lit_index index p m : Nat)
    (hc : index < raw_len - 1)
    (hp : st.last_bytepair_indexes (get_byte_pair raw index) = p)
    (hm : get_match_len MAX_MATCH_LEN raw raw_len index p = m)
    (hmin : MIN_MATCH_LEN ≤ m) (hpos : 1 ≤ m) (hs : start_lit_index ≤ index) (hpi : p ≤ index) :
    ∃ table,
      generate_loop MIN_MATCH_LEN MAX_MATCH_LEN raw raw_len (fuel + 1) st start_lit_index index
        = generate_loop MIN_MATCH_LEN MAX_MATCH_LEN raw raw_len fuel
            { st with
              last_bytepair_indexes := table
              lit_lens := st.lit_lens ++ [index - start_lit_index]
              match_lens := st.match_lens ++ [m]
              match_offsets := st.match_offsets ++ [index - p]
              n_chunks := st.n_chunks + 1 }
            (min (index + m) (raw_len - 1)) (min (index + m) (raw_len - 1)) := by
  refine ⟨(skip_loop raw (min (index + m) (raw_len - 1)) raw_len
    (set_index st.last_bytepair_indexes (get_byte_pair raw index) index) (index + 1)).1, ?_⟩
  rw [generate_loop, if_pos hc]
  simp only [hp, hm]
  rw [if_pos hmin, skip_loop_index raw _ raw_len _ (index + 1) (by omega) (by omega),
    sub32_of_le _ _ hs, sub32_of_le _ _ hpi]
  rfl

/-- At `index = raw_len - 1` the main loop is over. -/
theorem generate_loop_exit (MIN_MATCH_LEN MAX_MATCH_LEN : Nat) (raw : List u8)
    (raw_len fuel : Nat) (st : Lz4pjCState) (start_lit_index index : Nat)
    (hc : ¬ index < raw_len - 1) :
    generate_loop MIN_MATCH_LEN MAX_MATCH_LEN raw raw_len fuel st start_lit_index index
      = (st, start_lit_index) := by
  cases fuel with
  | zero => rfl
  | succ f => rw [generate_loop, if_neg hc]

/-- C1, failing input.  For every initial table, the wide pass on the eight bytes
`aaaaaaaa` records one chunk whose match runs to the end of the input and still appends
the last byte as a trailing literal; `write_compressed` emits the 15 bytes below, and the
decoder of the stream format returns nine bytes `a`, not the eight of the input. -/
theorem wide_pass_round_trip_repeated_byte (table : Nat → Nat) :
    write_compressed MIN_MAIN_PASS_MATCH_LEN MAX_MAIN_PASS_MATCH_LEN MAX_MAIN_PASS_MATCH_OFFSET
        (generate_chunks MIN_MAIN_PASS_MATCH_LEN MAX_MAIN_PASS_MATCH_LEN (init table)
          [97, 97, 97, 97, 97, 97, 97, 97] 8)
      = some [0, 2, 97, 97, 1, 0x10, 0x3f, 255, 255, 255, 255, 254, 238, 0, 1]
    ∧ spec_decode [0, 2, 97, 97, 1, 0x10, 0x3f, 255, 255, 255, 255, 254, 238, 0, 1]
      = some [97, 97, 97, 97, 97, 97, 97, 97, 97]
    ∧ spec_decode [0, 2, 97, 97, 1, 0x10, 0x3f, 255, 255, 255, 255, 254, 238, 0, 1]
      ≠ some (([97, 97, 97, 97, 97, 97, 97, 97] : List u8).map Fin.val) := by
  refine ⟨?_, by decide, by decide⟩
  have hp : set_index table (get_byte_pair [97, 97, 97, 97, 97, 97, 97, 97] 0) 0
      (get_byte_pair [97, 97, 97, 97, 97, 97, 97, 97] 1) = 0 :=
    set_index_same _ _ _ _ (by decide)
  obtain ⟨table1, h1⟩ := generate_loop_match_turn MIN_MAIN_PASS_MATCH_LEN
    MAX_MAIN_PASS_MATCH_LEN [97, 97, 97, 97, 97, 97, 97, 97] 8 6
    { init table with
      last_bytepair_indexes := set_index table (get_byte_pair [97, 97, 97, 97, 97, 97, 97, 97] 0) 0
      lits := [([97, 97, 97, 97, 97, 97, 97, 97] : List u8).getD 0 0]
      n_lits := 1 } 0 1 0 7 (by decide) hp (by decide) (by decide) (by decide)
    (by decide) (by decide)
  rw [write_compressed_congr _ _ _ _
    { last_bytepair_indexes := fun _ => 0, lit_lens := [1], match_lens := [7],
      match_offsets := [1], n_chunks := 1, trailing_lit_len := 1, lits := [97, 97], n_lits := 2 }
    (by
      rw [generate_chunks_first_turn MIN_MAIN_PASS_MATCH_LEN MAX_MAIN_PASS_MATCH_LEN table
        [97, 97, 97, 97, 97, 97, 97, 97] 8 6 (by decide) rfl, h1,
        generate_loop_exit _ _ _ _ _ _ _ _ (by decide)]
      rfl)]
  decide

/-- C2, failing input.  For every initial table, the wide pass on the seven bytes
`abababa` records one chunk with 2 literals and a 5-byte match that runs to the end of
the input, and a trailing literal length of 1: the three sums add up to 8, one more than
`raw_len = 7`. -/
theorem coverage_sum_match_to_end (table : Nat → Nat) :
    (generate_chunks MIN_MAIN_PASS_MATCH_LEN MAX_MAIN_PASS_MATCH_LEN (init table)
        [97, 98, 97, 98, 97, 98, 97] 7).lit_lens = [2]
    ∧ (generate_chunks MIN_MAIN_PASS_MATCH_LEN MAX_MAIN_PASS_MATCH_LEN (init table)
        [97, 98, 97, 98, 97, 98, 97] 7).match_lens = [5]
    ∧ (generate_chunks MIN_MAIN_PASS_MATCH_LEN MAX_MAIN_PASS_MATCH_LEN (init table)
        [97, 98, 97, 98, 97, 98, 97] 7).trailing_lit_len = 1
    ∧ (generate_chunks MIN_MAIN_PASS_MATCH_LEN MAX_MAIN_PASS_MATCH_LEN (init table)
          [97, 98, 97, 98, 97, 98, 97] 7).lit_lens.sum
        + (generate_chunks MIN_MAIN_PASS_MATCH_LEN MAX_MAIN_PASS_MATCH_LEN (init table)
          [97, 98, 97, 98, 97, 98, 97] 7).match_lens.sum
        + (generate_chunks MIN_MAIN_PASS_MATCH_LEN MAX_MAIN_PASS_MATCH_LEN (init table)
          [97, 98, 97, 98, 97, 98, 97] 7).trailing_lit_len
      = ([97, 98, 97, 98, 97, 98, 97] : List u8).length + 1 := by
  have k21 : get_byte_pair [97, 98, 97, 98, 97, 98, 97] 2
      ≠ get_byte_pair [97, 98, 97, 98, 97, 98, 97] 1 := by decide
  have k20 : get_byte_pair [97, 98, 97, 98, 97, 98, 97] 2
      = get_byte_pair [97, 98, 97, 98, 97, 98, 97] 0 := by decide
  have hp : set_index (set_index table (get_byte_pair [97, 98, 97, 98, 97, 98, 97] 0) 0)
      (get_byte_pair [97, 98, 97, 98, 97, 98, 97] 1) 1
      (get_byte_pair [97, 98, 97, 98, 97, 98, 97] 2) = 0 := by
    rw [set_index_other _ _ _ _ k21, set_index_same _ _ _ _ k20]
  have h1 := generate_loop_literal_turn MIN_MAIN_PASS_MATCH_LEN MAX_MAIN_PASS_MATCH_LEN
    [97, 98, 97, 98, 97, 98, 97] 7 5
    { init table with
      last_bytepair_indexes := set_index table (get_byte_pair [97, 98, 97, 98, 97, 98, 97] 0) 0
      lits := [([97, 98, 97, 98, 97, 98, 97] : List u8).getD 0 0]
      n_lits := 1 } 0 1 (by decide)
    (by rw [get_match_len_fresh_byte _ _ _ _ _ (by decide)]; decide)
  obtain ⟨table2, h2⟩ := generate_loop_match_turn MIN_MAIN_PASS_MATCH_LEN
    MAX_MAIN_PASS_MATCH_LEN [97, 98, 97, 98, 97, 98, 97] 7 4
    { init table with
      last_bytepair_indexes :=
        set_index (set_index table (get_byte_pair [97, 98, 97, 98, 97, 98, 97] 0) 0)
          (get_byte_pair [97, 98, 97, 98, 97, 98, 97] 1) 1
      lits := [([97, 98, 97, 98, 97, 98, 97] : List u8).getD 0 0]
        ++ [([97, 98, 97, 98, 97, 98, 97] : List u8).getD 1 0]
      n_lits := 1 + 1 } 0 2 0 5 (by decide) hp (by decide) (by decide) (by decide)
    (by decide) (by decide)
  rw [generate_chunks_first_turn MIN_MAIN_PASS_MATCH_LEN MAX_MAIN_PASS_MATCH_LEN table
    [97, 98, 97, 98, 97, 98, 97] 7 5 (by decide) rfl, h1, h2,
    generate_loop_exit _ _ _ _ _ _ _ _ (by decide)]
  exact ⟨rfl, rfl, rfl, rfl⟩

/-- With `n_lens = 0` the exit test `i < n_lens-1` of the loop of `write_lens` compares
with `0xffffffff`, so the first turn reads `lens[0]` and `lens[1]`, which do not exist:
no amount of fuel gives a result. -/
theorem write_lens_loop_zero (min_len fuel : Nat) :
    write_lens_loop [] 0 min_len fuel 0 = none := by
  cases fuel with
  | zero => rfl
  | succ f =>
    have h : (0 : Nat) < sub32 0 1 := by decide
    simp [write_lens_loop, h]

/-- `write_lens` on an empty length array has no result. -/
theorem write_lens_zero (min_len : Nat) : write_lens [] 0 min_len = none := by
  unfold write_lens
  rw [write_lens_loop_zero]

/-- `write_compressed` has no result for a state without chunks. -/
theorem write_compressed_no_chunks (MIN_MATCH_LEN MAX_MATCH_LEN MAX_MATCH_OFFSET : Nat)
    (st : Lz4pjCState) (h1 : st.n_chunks = 0) (h2 : st.lit_lens = []) :
    write_compressed MIN_MATCH_LEN MAX_MATCH_LEN MAX_MATCH_OFFSET st = none := by
  have h : write_lens st.lit_lens st.n_chunks 0 = none := by
    rw [h1, h2]
    exact write_lens_zero 0
  simp only [write_compressed, h]

/-- C5, failing input.  For the empty input and every initial table, `generate_chunks`
leaves `n_chunks = 0`, `n_lits = 0` and `trailing_lit_len = 0`, as claimed; but
`write_compressed` has no result: `write_lens` is entered with `n_lens = 0`, and its loop
has no result for any fuel.  The four bytes `00 00 00 00` are never returned. -/
theorem write_compressed_empty_input (table : Nat → Nat) :
    (generate_chunks MIN_MAIN_PASS_MATCH_LEN MAX_MAIN_PASS_MATCH_LEN (init table) [] 0).n_chunks = 0
    ∧ (generate_chunks MIN_MAIN_PASS_MATCH_LEN MAX_MAIN_PASS_MATCH_LEN (init table) [] 0).n_lits = 0
    ∧ (generate_chunks MIN_MAIN_PASS_MATCH_LEN MAX_MAIN_PASS_MATCH_LEN (init table) []
        0).trailing_lit_len = 0
    ∧ write_compressed MIN_MAIN_PASS_MATCH_LEN MAX_MAIN_PASS_MATCH_LEN MAX_MAIN_PASS_MATCH_OFFSET
        (generate_chunks MIN_MAIN_PASS_MATCH_LEN MAX_MAIN_PASS_MATCH_LEN (init table) [] 0) = none
    ∧ ∀ fuel, write_lens_loop
        (generate_chunks MIN_MAIN_PASS_MATCH_LEN MAX_MAIN_PASS_MATCH_LEN (init table) [] 0).lit_lens
        (generate_chunks MIN_MAIN_PASS_MATCH_LEN MAX_MAIN_PASS_MATCH_LEN (init table) [] 0).n_chunks
        0 fuel 0 = none :=
  ⟨rfl, rfl, rfl, write_compressed_no_chunks _ _ _ _ rfl rfl,
    fun fuel => write_lens_loop_zero 0 fuel⟩

set_option maxRecDepth 100000 in
/-- C6, failing input.  The 260 bytes `1 2 ... 255 0 1 1 2 3` have no 4-byte repeat, so the
wide pass leaves them all in its literal buffer, the input of the 3-byte pass.  There
`1 2 3` at position 257 matches position 0: `generate_chunks` records one chunk with
`match_offset = 257`, above `MAX_MATCH_OFFSET = 256`, and `write_match_offset` stores it
as the single byte `1`. -/
theorem capped_pass_offset_above_cap :
    ((List.range 257).map (fun i => (Fin.ofNat (i + 1) : u8)) ++ [1, 2, 3]).length = 260
    ∧ (generate_chunks MIN_MAIN_PASS_MATCH_LEN MAX_MAIN_PASS_MATCH_LEN (init fun _ => 0)
        ((List.range 257).map (fun i => (Fin.ofNat (i + 1) : u8)) ++ [1, 2, 3]) 260).lits
      = (List.range 257).map (fun i => (Fin.ofNat (i + 1) : u8)) ++ [1, 2, 3]
    ∧ (generate_chunks MIN_3BYTE_PASS_MATCH_LEN MAX_3BYTE_PASS_MATCH_LEN (init fun _ => 0)
        ((List.range 257).map (fun i => (Fin.ofNat (i + 1) : u8)) ++ [1, 2, 3]) 260).match_offsets
      = [257]
    ∧ MAX_3BYTE_PASS_MATCH_OFFSET < 257
    ∧ write_match_offset MAX_3BYTE_PASS_MATCH_OFFSET 257 = [1] := by
  decide!

/-- C10, failing input.  For every initial table, the wide pass on the five bytes `aaaaa`
emits 15 bytes, more than the `2 * 5` bytes `main` allocates: `write_compressed` writes
past the end of the output buffer. -/
theorem write_compressed_above_twice_raw_len (table : Nat → Nat) :
    write_compressed MIN_MAIN_PASS_MATCH_LEN MAX_MAIN_PASS_MATCH_LEN MAX_MAIN_PASS_MATCH_OFFSET
        (generate_chunks MIN_MAIN_PASS_MATCH_LEN MAX_MAIN_PASS_MATCH_LEN (init table)
          [97, 97, 97, 97, 97] 5)
      = some [0, 2, 97, 97, 1, 0x10, 0x0f, 255, 255, 255, 255, 254, 238, 0, 1]
    ∧ 2 * ([97, 97, 97, 97, 97] : List u8).length
      < [0, 2, 97, 97, 1, 0x10, 0x0f, 255, 255, 255, 255, 254, 238, 0, 1].length := by
  refine ⟨?_, by decide⟩
  have hp : set_index table (get_byte_pair [97, 97, 97, 97, 97] 0) 0
      (get_byte_pair [97, 97, 97, 97, 97] 1) = 0 :=
    set_index_same _ _ _ _ (by decide)
  obtain ⟨table1, h1⟩ := generate_loop_match_turn MIN_MAIN_PASS_MATCH_LEN
    MAX_MAIN_PASS_MATCH_LEN [97, 97, 97, 97, 97] 5 3
    { init table with
      last_bytepair_indexes := set_index table (get_byte_pair [97, 97, 97, 97, 97] 0) 0
      lits := [([97, 97, 97, 97, 97] : List u8).getD 0 0]
      n_lits := 1 } 0 1 0 4 (by decide) hp (by decide) (by decide) (by decide)
    (by decide) (by decide)
  rw [write_compressed_congr _ _ _ _
    { last_bytepair_indexes := fun _ => 0, lit_lens := [1], match_lens := [4],
      match_offsets := [1], n_chunks := 1, trailing_lit_len := 1, lits := [97, 97], n_lits := 2 }
    (by
      rw [generate_chunks_first_turn MIN_MAIN_PASS_MATCH_LEN MAX_MAIN_PASS_MATCH_LEN table
        [97, 97, 97, 97, 97] 5 3 (by decide) rfl, h1,
        generate_loop_exit _ _ _ _ _ _ _ _ (by decide)]
      rfl)]
  decide

/-! ## The main loop as an iteration of its body -/

/-- The main loop is the iteration of `generate_turn`: `generate_loop` returns the state
and `start_lit_index` of `generate_head`. -/
theorem generate_loop_eq_head (MIN_MATCH_LEN MAX_MATCH_LEN : Nat) (raw : List u8)
    (raw_len fuel : Nat) :
    ∀ st start_lit_index index,
      generate_loop MIN_MATCH_LEN MAX_MATCH_LEN raw raw_len fuel st start_lit_index index
        = ((generate_head MIN_MATCH_LEN MAX_MATCH_LEN raw raw_len fuel
              (st, start_lit_index, index)).1,
            (generate_head MIN_MATCH_LEN MAX_MATCH_LEN raw raw_len fuel
              (st, start_lit_index, index)).2.1) := by
  induction fuel with
  | zero => intro st start index; rfl
  | succ f ih =>
    intro st start index
    rw [generate_loop, generate_head]
    by_cases hc : index < raw_len - 1
    · rw [if_pos hc, if_pos hc]
      simp only
      by_cases hm : get_match_len MAX_MATCH_LEN raw raw_len index
          (st.last_bytepair_indexes (get_byte_pair raw index)) ≥ MIN_MATCH_LEN
      · rw [if_pos hm, ih]
        simp only [generate_turn, if_pos hm]
      · rw [if_neg hm, ih]
        simp only [generate_turn, if_neg hm]
    · rw [if_neg hc, if_neg hc]

/-- A property kept by every turn of the loop holds at every exit test. -/
theorem generate_head_invariant (MIN_MATCH_LEN MAX_MATCH_LEN : Nat) (raw : List u8)
    (raw_len : Nat) (P : Lz4pjCState × Nat × Nat → Prop)
    (hturn : ∀ s, P s → s.2.2 < raw_len - 1 →
      P (generate_turn MIN_MATCH_LEN MAX_MATCH_LEN raw raw_len s)) (k : Nat) :
    ∀ s, P s → P (generate_head MIN_MATCH_LEN MAX_MATCH_LEN raw raw_len k s) := by
  induction k with
  | zero => intro s hs; exact hs
  | succ k ih =>
    intro s hs
    rw [generate_head]
    split
    · rename_i hc
      exact ih _ (hturn s hs hc)
    · exact hs


/-- A turn in which `get_match_len` stays below `MIN_MATCH_LEN`. -/
theorem generate_turn_literal (MIN_MATCH_LEN MAX_MATCH_LEN : Nat) (raw : List u8)
    (raw_len : Nat) (st : Lz4pjCState) (start_lit_index index : Nat)
    (hm : get_match_len MAX_MATCH_LEN raw raw_len index
      (st.last_bytepair_indexes (get_byte_pair raw index)) < MIN_MATCH_LEN) :
    generate_turn MIN_MATCH_LEN MAX_MATCH_LEN raw raw_len (st, start_lit_index, index)
      = ({ st with
            last_bytepair_indexes :=
              set_index st.last_bytepair_indexes (get_byte_pair raw index) index
            lits := st.lits ++ [raw.getD index 0]
            n_lits := st.n_lits + 1 }, start_lit_index, index + 1) := by
  simp only [generate_turn]
  rw [if_neg (by omega)]

/-- A turn in which `get_match_len` returns at least `MIN_MATCH_LEN` (and at least 1):
the chunk is appended, the skip loop stores the positions inside the match, and the scan
resumes at the end of the match or at the last byte. -/
theorem generate_turn_match (MIN_MATCH_LEN MAX_MATCH_LEN : Nat) (raw : List u8)
    (raw_len : Nat) (st : Lz4pjCState) (start_lit_index index : Nat)
    (hc : index < raw_len - 1)
    (hm : MIN_MATCH_LEN ≤ get_match_len MAX_MATCH_LEN raw raw_len index
      (st.last_bytepair_indexes (get_byte_pair raw index)))
    (hpos : 1 ≤ get_match_len MAX_MATCH_LEN raw raw_len index
      (st.last_bytepair_indexes (get_byte_pair raw index))) :
    generate_turn MIN_MATCH_LEN MAX_MATCH_LEN raw raw_len (st, start_lit_index, index)
      = ({ st with
            last_bytepair_indexes :=
              (skip_loop raw
                (min (index + get_match_len MAX_MATCH_LEN raw raw_len index
                  (st.last_bytepair_indexes (get_byte_pair raw index))) (raw_len - 1))
                raw_len (set_index st.last_bytepair_indexes (get_byte_pair raw index) index)
                (index + 1)).1
            lit_lens := st.lit_lens ++ [sub32 index start_lit_index]
            match_lens := st.match_lens ++ [get_match_len MAX_MATCH_LEN raw raw_len index
              (st.last_bytepair_indexes (get_byte_pair raw index))]
            match_offsets := st.match_offsets
              ++ [sub32 index (st.last_bytepair_indexes (get_byte_pair raw index))]
            n_chunks := st.n_chunks + 1 },
          min (index + get_match_len MAX_MATCH_LEN raw raw_len index
            (st.last_bytepair_indexes (get_byte_pair raw index))) (raw_len - 1),
          min (index + get_match_len MAX_MATCH_LEN raw raw_len index
            (st.last_bytepair_indexes (get_byte_pair raw index))) (raw_len - 1)) := by
  simp only [generate_turn]
  rw [if_pos hm]
  simp only [add_chunk]
  rw [skip_loop_index raw _ raw_len _ (index + 1) (by omega) (by omega)]

/-- Every turn of the loop moves the scan forward and keeps it at or before the last
byte. -/
theorem generate_turn_index (MIN_MATCH_LEN MAX_MATCH_LEN : Nat) (raw : List u8)
    (raw_len : Nat) (hmin : 1 ≤ MIN_MATCH_LEN) (s : Lz4pjCState × Nat × Nat)
    (hc : s.2.2 < raw_len - 1) :
    s.2.2 < (generate_turn MIN_MATCH_LEN MAX_MATCH_LEN raw raw_len s).2.2
    ∧ (generate_turn MIN_MATCH_LEN MAX_MATCH_LEN raw raw_len s).2.2 ≤ raw_len - 1 := by
  obtain ⟨st, start, index⟩ := s
  simp only at hc
  by_cases hm : MIN_MATCH_LEN ≤ get_match_len MAX_MATCH_LEN raw raw_len index
      (st.last_bytepair_indexes (get_byte_pair raw index))
  · rw [generate_turn_match _ _ _ _ _ _ _ hc hm (by omega)]
    simp only
    omega
  · rw [generate_turn_literal _ _ _ _ _ _ _ (by omega)]
    simp only
    omega

/-- With `raw_len - 1 - index` turns or more the loop has reached its exit: the scan is
at the last byte. -/
theorem generate_head_exit (MIN_MATCH_LEN MAX_MATCH_LEN : Nat) (raw : List u8)
    (raw_len : Nat) (hmin : 1 ≤ MIN_MATCH_LEN) (k : Nat) :
    ∀ s : Lz4pjCState × Nat × Nat, s.2.2 ≤ raw_len - 1 → raw_len - 1 - s.2.2 ≤ k →
      (generate_head MIN_MATCH_LEN MAX_MATCH_LEN raw raw_len k s).2.2 = raw_len - 1 := by
  induction k with
  | zero =>
    intro s h1 h2
    rw [generate_head]
    omega
  | succ k ih =>
    intro s h1 h2
    rw [generate_head]
    split
    · rename_i hc
      obtain ⟨g1, g2⟩ := generate_turn_index MIN_MATCH_LEN MAX_MATCH_LEN raw raw_len hmin s hc
      exact ih _ g2 (by omega)
    · omega

/-- Every turn of the loop keeps `LoopInv`. -/
theorem loopInv_turn (MIN_MATCH_LEN MAX_MATCH_LEN : Nat) (raw : List u8) (raw_len : Nat)
    (hmin : 1 ≤ MIN_MATCH_LEN) (st : Lz4pjCState) (start_lit_index index : Nat)
    (inv : LoopInv MIN_MATCH_LEN raw raw_len st start_lit_index index)
    (hc : index < raw_len - 1) :
    LoopInv MIN_MATCH_LEN raw raw_len
      (generate_turn MIN_MATCH_LEN MAX_MATCH_LEN raw raw_len (st, start_lit_index, index)).1
      (generate_turn MIN_MATCH_LEN MAX_MATCH_LEN raw raw_len (st, start_lit_index, index)).2.1
      (generate_turn MIN_MATCH_LEN MAX_MATCH_LEN raw raw_len (st, start_lit_index, index)).2.2 := by
  have hs := inv.start_le
  by_cases hm : MIN_MATCH_LEN ≤ get_match_len MAX_MATCH_LEN raw raw_len index
      (st.last_bytepair_indexes (get_byte_pair raw index))
  · rw [generate_turn_match _ _ _ _ _ _ _ hc hm (by omega)]
    obtain ⟨g1, g2, g3⟩ := get_match_len_spec MAX_MATCH_LEN raw raw_len index
      (st.last_bytepair_indexes (get_byte_pair raw index)) (by omega)
    generalize get_match_len MAX_MATCH_LEN raw raw_len index
      (st.last_bytepair_indexes (get_byte_pair raw index)) = m at hm g2 g3
    generalize st.last_bytepair_indexes (get_byte_pair raw index) = p at g1 g3
    have hcov : st.lit_lens.sum + st.match_lens.sum = start_lit_index := by
      rcases inv.covered with h | h
      · exact h
      · omega
    have e1 : sub32 index start_lit_index = index - start_lit_index := sub32_of_le _ _ hs
    have e2 : sub32 index p = index - p := sub32_of_le _ _ (by omega)
    refine ⟨le_refl _, by simp only; omega, by simp [inv.len_lit], by simp [inv.len_match],
      by simp [inv.len_off], inv.len_lits, ?_, ?_, ?_⟩
    · simp only [List.sum_append, List.sum_cons, List.sum_nil, e1]
      have := inv.n_lits_eq
      omega
    · simp only [List.sum_append, List.sum_cons, List.sum_nil, e1]
      by_cases hend : index + m ≤ raw_len - 1
      · left; omega
      · right; omega
    · intro j hj
      replace hj : j < st.n_chunks + 1 := hj
      by_cases hjl : j < st.n_chunks
      · have := inv.chunks_ok j hjl
        simp only
        rw [chunk_pos_append_lt _ _ _ _ _ (by rw [inv.len_lit]; exact hjl)
            (by rw [inv.len_match]; exact hjl),
          List.getD_append _ _ _ _ (by rw [inv.len_match]; exact hjl),
          List.getD_append _ _ _ _ (by rw [inv.len_off]; exact hjl)]
        exact this
      · have hje : j = st.n_chunks := by omega
        subst hje
        have hp := chunk_pos_append_eq st.lit_lens st.match_lens (sub32 index start_lit_index) m
          (by rw [inv.len_match, inv.len_lit])
        rw [inv.len_lit] at hp
        simp only
        rw [hp, List.getD_append_right _ _ _ _ (by rw [inv.len_match]),
          List.getD_append_right _ _ _ _ (by rw [inv.len_off]), inv.len_match, inv.len_off]
        simp only [Nat.sub_self, List.getD_cons_zero, e1, e2]
        have hi : st.lit_lens.sum + st.match_lens.sum + (index - start_lit_index) = index := by
          omega
        rw [hi]
        refine ⟨by omega, by omega, hm, g2, ?_⟩
        intro k hk
        rw [show index - (index - p) = p by omega]
        exact g3 k hk
  · rw [generate_turn_literal _ _ _ _ _ _ _ (by omega)]
    refine ⟨by simp only; omega, by simp only; omega, inv.len_lit, inv.len_match, inv.len_off,
      by simp [inv.len_lits], ?_, ?_, inv.chunks_ok⟩
    · have := inv.n_lits_eq
      simp only
      omega
    · rcases inv.covered with h | h
      · exact Or.inl h
      · omega


/-- Invariant rule for `generate_chunks` on a non-empty input: a property that holds on
entry to the main loop and is kept by every turn (where `LoopInv` may be used) holds at
the exit of the loop, and `generate_chunks` is that exit state with the trailing literal
appended. -/
theorem generate_chunks_invariant (MIN_MATCH_LEN MAX_MATCH_LEN : Nat) (table : Nat → Nat)
    (raw : List u8) (raw_len : Nat) (hpos : 0 < raw_len) (hmin : 1 ≤ MIN_MATCH_LEN)
    (P : Lz4pjCState × Nat × Nat → Prop) (h0 : P (init table, 0, 0))
    (hturn : ∀ s, LoopInv MIN_MATCH_LEN raw raw_len s.1 s.2.1 s.2.2 → P s →
      s.2.2 < raw_len - 1 → P (generate_turn MIN_MATCH_LEN MAX_MATCH_LEN raw raw_len s)) :
    ∃ st1 start_lit_index,
      LoopInv MIN_MATCH_LEN raw raw_len st1 start_lit_index (raw_len - 1)
      ∧ P (st1, start_lit_index, raw_len - 1)
      ∧ generate_chunks MIN_MATCH_LEN MAX_MATCH_LEN (init table) raw raw_len
        = { st1 with
            trailing_lit_len := raw_len - start_lit_index
            lits := st1.lits ++ [raw.getD (raw_len - 1) 0]
            n_lits := st1.n_lits + 1 } := by
  have hq := generate_head_invariant MIN_MATCH_LEN MAX_MATCH_LEN raw raw_len
    (fun s => LoopInv MIN_MATCH_LEN raw raw_len s.1 s.2.1 s.2.2 ∧ P s)
    (fun s hs hc => ⟨loopInv_turn MIN_MATCH_LEN MAX_MATCH_LEN raw raw_len hmin s.1 s.2.1 s.2.2
      hs.1 hc, hturn s hs.1 hs.2 hc⟩) raw_len (init table, 0, 0)
    ⟨loopInv_init MIN_MATCH_LEN raw raw_len table, h0⟩
  have he := generate_head_exit MIN_MATCH_LEN MAX_MATCH_LEN raw raw_len hmin raw_len
    (init table, 0, 0) (by simp) (by simp)
  have hg : generate_chunks MIN_MATCH_LEN MAX_MATCH_LEN (init table) raw raw_len
      = generate_chunks_finish raw raw_len
          ((generate_head MIN_MATCH_LEN MAX_MATCH_LEN raw raw_len raw_len (init table, 0, 0)).1,
            (generate_head MIN_MATCH_LEN MAX_MATCH_LEN raw raw_len raw_len
              (init table, 0, 0)).2.1) := by
    unfold generate_chunks
    rw [if_neg (by omega), generate_loop_eq_head]
  generalize generate_head MIN_MATCH_LEN MAX_MATCH_LEN raw raw_len raw_len (init table, 0, 0)
    = h at hq he hg
  obtain ⟨st1, start, index⟩ := h
  simp only at hq he hg
  subst he
  refine ⟨st1, start, hq.1, hq.2, ?_⟩
  have hs := hq.1.start_le
  have e : sub32 raw_len start = raw_len - start := sub32_of_le _ _ (by omega)
  rw [hg]
  unfold generate_chunks_finish
  simp only [e]
  rw [if_pos (by omega)]

/-! ## Capacity of the chunk arrays -/

/-- A list whose entries are all at least `c` sums to at least `c` times its length. -/
theorem mul_length_le_sum (c : Nat) (l : List Nat) (h : ∀ j, j < l.length → c ≤ l.getD j 0) :
    c * l.length ≤ l.sum := by
  induction l with
  | nil => simp
  | cons a t ih =>
    have h0 := h 0 (by simp)
    have ht := ih (fun j hj => by
      have := h (j + 1) (by simp; omega)
      simpa using this)
    simp only [List.length_cons, List.sum_cons, List.getD_cons_zero] at h0 ⊢
    rw [Nat.mul_succ]
    omega

/-- Under `LoopInv` the matches recorded so far lie side by side inside the input, so
`MIN_MATCH_LEN` times the number of chunks is at most `raw_len`. -/
theorem loopInv_chunks_le (MIN_MATCH_LEN : Nat) (raw : List u8) (raw_len : Nat)
    (st : Lz4pjCState) (start_lit_index index : Nat)
    (inv : LoopInv MIN_MATCH_LEN raw raw_len st start_lit_index index) :
    MIN_MATCH_LEN * st.n_chunks ≤ raw_len := by
  have h := mul_length_le_sum MIN_MATCH_LEN st.match_lens (fun j hj =>
    (inv.chunks_ok j (by rw [← inv.len_match]; exact hj)).2.2.1)
  rw [inv.len_match] at h
  have h1 := inv.start_le
  have h2 := inv.index_le
  rcases inv.covered with hc | hc
  · by_cases h0 : st.n_chunks = 0
    · rw [h0]; omega
    · have := (inv.chunks_ok 0 (by omega)).2.2.2.1
      omega
  · omega

/-- C17 (chunk-array capacity in the main pass).  For every input shorter than `2 ^ 32`
bytes and every initial table, the wide pass never holds more than `(raw_len + 3) / 4`
chunks, the number of slots `init(raw_len)` allocates: this holds at the exit test of the
loop after any number of turns, so each `add_chunk` writes below the end of the arrays,
and it holds for the result of `generate_chunks`. -/
theorem wide_pass_chunk_capacity (table : Nat → Nat) (raw : List u8)
    (hlen : raw.length < 2 ^ 32) :
    (∀ k, (generate_head MIN_MAIN_PASS_MATCH_LEN MAX_MAIN_PASS_MATCH_LEN raw raw.length k
        (init table, 0, 0)).1.n_chunks ≤ max_nchunks raw.length)
    ∧ (generate_chunks MIN_MAIN_PASS_MATCH_LEN MAX_MAIN_PASS_MATCH_LEN (init table) raw
        raw.length).n_chunks ≤ max_nchunks raw.length := by
  have hb : ∀ st start index,
      LoopInv MIN_MAIN_PASS_MATCH_LEN raw raw.length st start index →
      st.n_chunks ≤ max_nchunks raw.length := by
    intro st start index inv
    have := loopInv_chunks_le _ _ _ _ _ _ inv
    unfold max_nchunks
    simp only [MIN_MAIN_PASS_MATCH_LEN] at this
    omega
  constructor
  · intro k
    have hq := generate_head_invariant MIN_MAIN_PASS_MATCH_LEN MAX_MAIN_PASS_MATCH_LEN raw
      raw.length (fun s => LoopInv MIN_MAIN_PASS_MATCH_LEN raw raw.length s.1 s.2.1 s.2.2)
      (fun s hs hc => loopInv_turn MIN_MAIN_PASS_MATCH_LEN MAX_MAIN_PASS_MATCH_LEN raw
        raw.length (by decide) s.1 s.2.1 s.2.2 hs hc) k (init table, 0, 0)
      (loopInv_init MIN_MAIN_PASS_MATCH_LEN raw raw.length table)
    exact hb _ _ _ hq
  · by_cases h0 : raw.length = 0
    · rw [h0]
      simp [generate_chunks, init]
    · obtain ⟨st1, start, inv, e⟩ := generate_chunks_nonempty MIN_MAIN_PASS_MATCH_LEN
        MAX_MAIN_PASS_MATCH_LEN table raw raw.length (by omega) hlen (by decide)
      rw [e]
      exact hb st1 _ _ inv

/-- Witness of C17: on `1 2 3 4 1 2 3 4 1 2 3 4 5` the wide pass holds one chunk, within
the four slots allocated for 13 bytes. -/
theorem wide_pass_chunk_capacity_witness :
    ([1, 2, 3, 4, 1, 2, 3, 4, 1, 2, 3, 4, 5] : List u8).length < 2 ^ 32
    ∧ (generate_chunks MIN_MAIN_PASS_MATCH_LEN MAX_MAIN_PASS_MATCH_LEN (init fun _ => 0)
        [1, 2, 3, 4, 1, 2, 3, 4, 1, 2, 3, 4, 5] 13).n_chunks ≤ max_nchunks 13
    ∧ (generate_chunks MIN_MAIN_PASS_MATCH_LEN MAX_MAIN_PASS_MATCH_LEN (init fun _ => 0)
        [1, 2, 3, 4, 1, 2, 3, 4, 1, 2, 3, 4, 5] 13).n_chunks = 1
    ∧ max_nchunks 13 = 4 :=
  ⟨by decide,
    (wide_pass_chunk_capacity (fun _ => 0) [1, 2, 3, 4, 1, 2, 3, 4, 1, 2, 3, 4, 5]
      (by decide)).2,
    by decide, by decide⟩

/-! ## Padding of an odd length section -/

/-- The padding value of an odd length section: `write_len_pair` subtracts `min_len` from
the synthetic length 0 in `u32` arithmetic. -/
theorem write_len_pair_padding (len min_len : Nat) :
    write_len_pair len 0 min_len
      = (16 * (if sub32 len min_len < 15 then sub32 len min_len else 15)
          + (if sub32 0 min_len < 15 then sub32 0 min_len else 15))
        :: (write_long_len (sub32 len min_len) ++ write_long_len (sub32 0 min_len)) :=
  write_len_pair_eq len 0 min_len

/-- C13, failing input.  With `min_len = 0` the padding of an odd length section is as
claimed: the low nibble is 0 and nothing follows the overflow bytes of the last length.
With `min_len = 4`, the match lengths of the wide pass, `0 - 4` wraps to `0xfffffffc`: for
every last length `len + 4` the low nibble is 15 and the six bytes `ff ff ff ff fe ee`
follow.  So it is for the wide pass on `aaaaaaaa`, whose only match length is 7. -/
theorem odd_padding_wraps (table : Nat → Nat) :
    (∀ len, write_len_pair len 0 0
        = (16 * (if len < 15 then len else 15) + 0) :: (write_long_len len ++ []))
    ∧ (∀ len, write_len_pair (len + 4) 0 MIN_MAIN_PASS_MATCH_LEN
        = (16 * (if len < 15 then len else 15) + 15)
          :: (write_long_len len ++ [255, 255, 255, 255, 254, 238]))
    ∧ (generate_chunks MIN_MAIN_PASS_MATCH_LEN MAX_MAIN_PASS_MATCH_LEN (init table)
        [97, 97, 97, 97, 97, 97, 97, 97] 8).match_lens = [7]
    ∧ write_lens [7] 1 MIN_MAIN_PASS_MATCH_LEN
      = some [0x3f, 255, 255, 255, 255, 254, 238] := by
  refine ⟨?_, ?_, ?_, by decide⟩
  · intro len
    rw [write_len_pair_padding, sub32_of_le _ _ (Nat.zero_le _)]
    rfl
  · intro len
    have e1 : sub32 (len + 4) MIN_MAIN_PASS_MATCH_LEN = len :=
      (sub32_of_le _ _ (Nat.le_add_left 4 len)).trans (Nat.add_sub_cancel len 4)
    have e2 : sub32 0 MIN_MAIN_PASS_MATCH_LEN = 4294967292 := by decide
    have e3 : write_long_len 4294967292 = [255, 255, 255, 255, 254, 238] := by decide
    rw [write_len_pair_padding, e1, e2, e3]
    rfl
  · have hp : set_index table (get_byte_pair [97, 97, 97, 97, 97, 97, 97, 97] 0) 0
        (get_byte_pair [97, 97, 97, 97, 97, 97, 97, 97] 1) = 0 :=
      set_index_same _ _ _ _ (by decide)
    obtain ⟨table1, h1⟩ := generate_loop_match_turn MIN_MAIN_PASS_MATCH_LEN
      MAX_MAIN_PASS_MATCH_LEN [97, 97, 97, 97, 97, 97, 97, 97] 8 6
      { init table with
        last_bytepair_indexes :=
          set_index table (get_byte_pair [97, 97, 97, 97, 97, 97, 97, 97] 0) 0
        lits := [([97, 97, 97, 97, 97, 97, 97, 97] : List u8).getD 0 0]
        n_lits := 1 } 0 1 0 7 (by decide) hp (by decide) (by decide) (by decide)
      (by decide) (by decide)
    rw [generate_chunks_first_turn MIN_MAIN_PASS_MATCH_LEN MAX_MAIN_PASS_MATCH_LEN table
      [97, 97, 97, 97, 97, 97, 97, 97] 8 6 (by decide) rfl, h1,
      generate_loop_exit _ _ _ _ _ _ _ _ (by decide)]
    rfl

/-! ## Encoding of the match offsets -/

/-- The varint reader recovers a `u32` value from the bytes of `write_utf8_len` and leaves
what follows unread. -/
theorem spec_read_varint_write (v : Nat) (hv : v < 2 ^ 32) (rest : List Nat) :
    spec_read_varint (write_utf8_len v ++ rest) = some (v, rest) := by
  rcases write_utf8_len_cases v hv with
    ⟨h0, h⟩ | ⟨h0, h1, h⟩ | ⟨h0, h1, h⟩ | ⟨h0, h1, h⟩ | ⟨h0, h1, h⟩ | ⟨h0, h⟩
  · subst h0
    rw [h]
    simp [spec_read_varint]
  · rw [h]
    have : v < 128 := by omega
    simp [spec_read_varint, this]
  · rw [h]
    have : v / 128 < 128 := by omega
    simp [spec_read_varint, this]; omega
  · rw [h]
    have : v / 128 / 128 < 128 := by omega
    simp [spec_read_varint, this]; omega
  · rw [h]
    have : v / 128 / 128 / 128 < 128 := by omega
    simp [spec_read_varint, this]; omega
  · rw [h]
    have : v / 128 / 128 / 128 / 128 < 128 := by omega
    simp [spec_read_varint, this]; omega

/-- C18 (offset encoding).  In the wide pass `MAX_MATCH_OFFSET = 0` and the `u32` test
`MAX_MATCH_OFFSET - MIN_MATCH_OFFSET < 256` compares `0xffffffff` with 256: it is false,
so every `u32` offset `d ≥ 1` is stored as the basic varint of `d - 1`, and the reader of
the match offsets recovers `d`.  In the capped passes (`MAX_MATCH_OFFSET = 256`) the test
is true and the offset is stored as the single byte `d mod 256`. -/
theorem write_match_offset_encoding (d : Nat) (hd1 : 1 ≤ d) (hd : d < 2 ^ 32) :
    sub32 MAX_MAIN_PASS_MATCH_OFFSET MIN_MATCH_OFFSET = 2 ^ 32 - 1
    ∧ ¬ sub32 MAX_MAIN_PASS_MATCH_OFFSET MIN_MATCH_OFFSET < 256
    ∧ write_match_offset MAX_MAIN_PASS_MATCH_OFFSET d = write_utf8_len (d - 1)
    ∧ (∀ rest, spec_read_offsets 1 (write_match_offset MAX_MAIN_PASS_MATCH_OFFSET d ++ rest)
        = some ([d], rest))
    ∧ sub32 MAX_3BYTE_PASS_MATCH_OFFSET MIN_MATCH_OFFSET < 256
    ∧ write_match_offset MAX_3BYTE_PASS_MATCH_OFFSET d = [d % 256]
    ∧ write_match_offset MAX_2BYTE_PASS_MATCH_OFFSET d = [d % 256] := by
  have hw : write_match_offset MAX_MAIN_PASS_MATCH_OFFSET d = write_utf8_len (d - 1) := by
    unfold write_match_offset
    rw [if_neg (by decide), show MIN_MATCH_OFFSET = 1 from rfl, sub32_of_le _ _ hd1]
  refine ⟨by decide, by decide, hw, ?_, by decide, ?_, ?_⟩
  · intro rest
    rw [hw]
    simp only [spec_read_offsets]
    rw [spec_read_varint_write _ (by omega)]
    simp only [Nat.sub_add_cancel hd1]
  · unfold write_match_offset
    rw [if_pos (by decide)]
    rfl
  · unfold write_match_offset
    rw [if_pos (by decide)]
    rfl

/-- Witness of C18 at the offset 300: `ab 02` in the wide pass, the byte `2c` in the capped
passes. -/
theorem write_match_offset_encoding_witness :
    1 ≤ 300 ∧ 300 < 2 ^ 32
    ∧ write_match_offset MAX_MAIN_PASS_MATCH_OFFSET 300 = [0xab, 0x02]
    ∧ spec_read_offsets 1 (write_match_offset MAX_MAIN_PASS_MATCH_OFFSET 300 ++ [])
      = some ([300], [])
    ∧ write_match_offset MAX_3BYTE_PASS_MATCH_OFFSET 300 = [300 % 256] :=
  ⟨by decide, by decide, by decide,
    (write_match_offset_encoding 300 (by decide) (by decide)).2.2.2.1 [],
    (write_match_offset_encoding 300 (by decide) (by decide)).2.2.2.2.2.1⟩

/-! ## Capacity of the chunk arrays in the 3-byte pass -/

set_option maxRecDepth 100000 in
/-- C20, failing input.  The 78 bytes below are 26 three-byte words over five words
`1 2 3`, ..., `13 14 15`, in which no pair of neighbouring words occurs twice.  The wide
pass finds no 4-byte match, so its literal buffer is the whole input and
`lz4pj_compress` allocates `(78 + 3) / 4 = 20` chunk slots for the 3-byte pass; that pass
records a chunk at each of the 21 repeated words: the twenty-first `add_chunk` writes
past the end of `lit_lens`, `match_lens` and `match_offsets`. -/
theorem three_byte_pass_chunks_above_capacity :
    (generate_chunks MIN_MAIN_PASS_MATCH_LEN MAX_MAIN_PASS_MATCH_LEN (init fun _ => 0)
        [1, 2, 3, 1, 2, 3, 4, 5, 6, 1, 2, 3, 7, 8, 9, 1, 2, 3, 10, 11, 12, 1, 2, 3, 13, 14, 15,
          4, 5, 6, 4, 5, 6, 7, 8, 9, 4, 5, 6, 10, 11, 12, 4, 5, 6, 13, 14, 15, 7, 8, 9, 7, 8, 9,
          10, 11, 12, 7, 8, 9, 13, 14, 15, 10, 11, 12, 10, 11, 12, 13, 14, 15, 13, 14, 15,
          1, 2, 3] 78).lits
      = [1, 2, 3, 1, 2, 3, 4, 5, 6, 1, 2, 3, 7, 8, 9, 1, 2, 3, 10, 11, 12, 1, 2, 3, 13, 14, 15,
          4, 5, 6, 4, 5, 6, 7, 8, 9, 4, 5, 6, 10, 11, 12, 4, 5, 6, 13, 14, 15, 7, 8, 9, 7, 8, 9,
          10, 11, 12, 7, 8, 9, 13, 14, 15, 10, 11, 12, 10, 11, 12, 13, 14, 15, 13, 14, 15,
          1, 2, 3]
    ∧ (generate_chunks MIN_MAIN_PASS_MATCH_LEN MAX_MAIN_PASS_MATCH_LEN (init fun _ => 0)
        [1, 2, 3, 1, 2, 3, 4, 5, 6, 1, 2, 3, 7, 8, 9, 1, 2, 3, 10, 11, 12, 1, 2, 3, 13, 14, 15,
          4, 5, 6, 4, 5, 6, 7, 8, 9, 4, 5, 6, 10, 11, 12, 4, 5, 6, 13, 14, 15, 7, 8, 9, 7, 8, 9,
          10, 11, 12, 7, 8, 9, 13, 14, 15, 10, 11, 12, 10, 11, 12, 13, 14, 15, 13, 14, 15,
          1, 2, 3] 78).n_lits = 78
    ∧ max_nchunks 78 = 20
    ∧ (generate_chunks MIN_3BYTE_PASS_MATCH_LEN MAX_3BYTE_PASS_MATCH_LEN (init fun _ => 0)
        [1, 2, 3, 1, 2, 3, 4, 5, 6, 1, 2, 3, 7, 8, 9, 1, 2, 3, 10, 11, 12, 1, 2, 3, 13, 14, 15,
          4, 5, 6, 4, 5, 6, 7, 8, 9, 4, 5, 6, 10, 11, 12, 4, 5, 6, 13, 14, 15, 7, 8, 9, 7, 8, 9,
          10, 11, 12, 7, 8, 9, 13, 14, 15, 10, 11, 12, 10, 11, 12, 13, 14, 15, 13, 14, 15,
          1, 2, 3] 78).n_chunks = 21 := by
  decide!

/-! ## Passes with a fixed match length -/

/-- With a bound on the match length the loop of `get_match_len` stops at
`start_index + MAX_MATCH_LEN` at the latest. -/
theorem get_match_len_loop_le_max (MAX_MATCH_LEN : Nat) (raw : List u8)
    (raw_len start_index fuel : Nat) (hmax : MAX_MATCH_LEN ≠ NO_MAX_MATCH_LEN) :
    ∀ index match_index, index ≤ start_index + MAX_MATCH_LEN →
      get_match_len_loop MAX_MATCH_LEN raw raw_len start_index fuel index match_index
        ≤ start_index + MAX_MATCH_LEN := by
  induction fuel with
  | zero =>
    intro index match_index h
    simpa [get_match_len_loop] using h
  | succ f ih =>
    intro index match_index h
    rw [get_match_len_loop]
    split
    · rename_i hc
      rcases hc.2.1 with h1 | h1
      · exact absurd h1 hmax
      · have := Nat.mod_le (start_index + MAX_MATCH_LEN) (2 ^ 32)
        exact ih _ _ (by omega)
    · exact h

/-- With a bound on the match length `get_match_len` returns at most the bound. -/
theorem get_match_len_le_max (MAX_MATCH_LEN : Nat) (raw : List u8)
    (raw_len index match_index : Nat) (hmax : MAX_MATCH_LEN ≠ NO_MAX_MATCH_LEN) :
    get_match_len MAX_MATCH_LEN raw raw_len index match_index ≤ MAX_MATCH_LEN := by
  unfold get_match_len
  split
  · omega
  · have := get_match_len_loop_le_max MAX_MATCH_LEN raw raw_len index (raw_len - index) hmax
      index match_index (by omega)
    omega

/-- C14 (fixed-length passes).  In a pass with `MIN_MATCH_LEN = MAX_MATCH_LEN = L`, `L ≥ 1`
(3 in the 3-byte pass, 2 in the 2-byte pass), for every input and every initial table every
chunk recorded by `generate_chunks` has `match_len = L`: the match lengths are `n_chunks`
copies of `L`.  `write_compressed` of such a pass writes no match-length section: its
output is the same whatever `match_lens` holds. -/
theorem fixed_length_pass_match_len (L : Nat) (hL : 1 ≤ L) (MAX_MATCH_OFFSET : Nat)
    (table : Nat → Nat) (raw : List u8) :
    (∀ j, j < (generate_chunks L L (init table) raw raw.length).n_chunks →
      (generate_chunks L L (init table) raw raw.length).match_lens.getD j 0 = L)
    ∧ (generate_chunks L L (init table) raw raw.length).match_lens
      = List.replicate (generate_chunks L L (init table) raw raw.length).n_chunks L
    ∧ ∀ match_lens : List Nat,
      write_compressed L L MAX_MATCH_OFFSET
          { generate_chunks L L (init table) raw raw.length with match_lens := match_lens }
        = write_compressed L L MAX_MATCH_OFFSET (generate_chunks L L (init table) raw raw.length)
    := by
  have hall : (generate_chunks L L (init table) raw raw.length).match_lens.length
        = (generate_chunks L L (init table) raw raw.length).n_chunks
      ∧ ∀ j, j < (generate_chunks L L (init table) raw raw.length).n_chunks →
        (generate_chunks L L (init table) raw raw.length).match_lens.getD j 0 = L := by
    by_cases h0 : raw.length = 0
    · rw [h0]
      simp [generate_chunks, init]
    · obtain ⟨st1, start, inv, hP, e⟩ := generate_chunks_invariant L L table raw raw.length
        (by omega) hL
        (fun s => ∀ j, j < s.1.match_lens.length → s.1.match_lens.getD j 0 ≤ L)
        (by intro j hj; simp [init] at hj)
        (by
          rintro ⟨st, start, index⟩ inv hP hc
          simp only at hc hP ⊢
          by_cases hm : L ≤ get_match_len L raw raw.length index
              (st.last_bytepair_indexes (get_byte_pair raw index))
          · rw [generate_turn_match _ _ _ _ _ _ _ hc hm (by omega)]
            simp only
            intro j hj
            by_cases hjl : j < st.match_lens.length
            · rw [List.getD_append _ _ _ _ hjl]
              exact hP j hjl
            · have hje : j = st.match_lens.length := by
                simp only [List.length_append, List.length_cons, List.length_nil] at hj
                omega
              subst hje
              rw [List.getD_append_right _ _ _ _ (le_refl _)]
              simp only [Nat.sub_self, List.getD_cons_zero]
              exact get_match_len_le_max L raw raw.length index _
                (by simp only [NO_MAX_MATCH_LEN]; omega)
          · rw [generate_turn_literal _ _ _ _ _ _ _ (by omega)]
            exact hP)
      rw [e]
      simp only at hP ⊢
      refine ⟨inv.len_match, ?_⟩
      intro j hj
      have h1 := (inv.chunks_ok j hj).2.2.1
      have h2 := hP j (by rw [inv.len_match]; exact hj)
      omega
  refine ⟨hall.2, ?_, ?_⟩
  · rw [List.eq_replicate_iff]
    refine ⟨hall.1, ?_⟩
    intro b hb
    obtain ⟨i, hi, rfl⟩ := List.getElem_of_mem hb
    have := hall.2 i (by rw [← hall.1]; exact hi)
    rw [List.getD_eq_getElem _ _ hi] at this
    exact this
  · intro match_lens
    unfold write_compressed
    simp only [ne_eq, not_true_eq_false, if_false]

/-- Witness of C14: the 3-byte pass on `1 2 3 1 2 3 9` records one chunk, of match
length 3. -/
theorem fixed_length_pass_match_len_witness :
    1 ≤ 3
    ∧ (generate_chunks 3 3 (init fun _ => 0) [1, 2, 3, 1, 2, 3, 9]
        ([1, 2, 3, 1, 2, 3, 9] : List u8).length).match_lens
      = List.replicate (generate_chunks 3 3 (init fun _ => 0) [1, 2, 3, 1, 2, 3, 9]
        ([1, 2, 3, 1, 2, 3, 9] : List u8).length).n_chunks 3
    ∧ (generate_chunks 3 3 (init fun _ => 0) [1, 2, 3, 1, 2, 3, 9] 7).n_chunks = 1 :=
  ⟨by decide,
    (fixed_length_pass_match_len 3 (by decide) MAX_3BYTE_PASS_MATCH_OFFSET (fun _ => 0)
      [1, 2, 3, 1, 2, 3, 9]).2.1,
    by decide⟩

/-! ## Inputs without a repeated byte pair -/

/-- The first `index` bytes followed by the byte at `index` are the first `index + 1`
bytes. -/
theorem take_append_getD (raw : List u8) (index : Nat) (h : index < raw.length) :
    raw.take index ++ [raw.getD index 0] = raw.take (index + 1) := by
  rw [List.take_succ, List.getD_eq_getElem _ _ h, List.getElem?_eq_getElem h]
  rfl

/-- C12 (no repeated byte pair).  When no 2-byte sequence occurs at two positions of the
input, then, whatever the byte-pair table initially holds, the wide pass records no chunk
and the literal buffer is the whole input: `lits = raw` and `n_lits = raw_len`. -/
theorem no_repeated_pair_all_literals (table : Nat → Nat) (raw : List u8)
    (hpair : ∀ i j, i < j → j + 1 < raw.length →
      ¬ (raw.getD i 0 = raw.getD j 0 ∧ raw.getD (i + 1) 0 = raw.getD (j + 1) 0)) :
    (generate_chunks MIN_MAIN_PASS_MATCH_LEN MAX_MAIN_PASS_MATCH_LEN (init table) raw
        raw.length).n_chunks = 0
    ∧ (generate_chunks MIN_MAIN_PASS_MATCH_LEN MAX_MAIN_PASS_MATCH_LEN (init table) raw
        raw.length).lit_lens = []
    ∧ (generate_chunks MIN_MAIN_PASS_MATCH_LEN MAX_MAIN_PASS_MATCH_LEN (init table) raw
        raw.length).match_lens = []
    ∧ (generate_chunks MIN_MAIN_PASS_MATCH_LEN MAX_MAIN_PASS_MATCH_LEN (init table) raw
        raw.length).match_offsets = []
    ∧ (generate_chunks MIN_MAIN_PASS_MATCH_LEN MAX_MAIN_PASS_MATCH_LEN (init table) raw
        raw.length).lits = raw
    ∧ (generate_chunks MIN_MAIN_PASS_MATCH_LEN MAX_MAIN_PASS_MATCH_LEN (init table) raw
        raw.length).n_lits = raw.length
    ∧ (generate_chunks MIN_MAIN_PASS_MATCH_LEN MAX_MAIN_PASS_MATCH_LEN (init table) raw
        raw.length).trailing_lit_len = raw.length := by
  by_cases h0 : raw.length = 0
  · rw [h0]
    have : raw = [] := List.length_eq_zero.mp h0
    subst this
    simp [generate_chunks, init]
  · obtain ⟨st1, start, inv, hP, e⟩ := generate_chunks_invariant MIN_MAIN_PASS_MATCH_LEN
      MAX_MAIN_PASS_MATCH_LEN table raw raw.length (by omega) (by decide)
      (fun s => s.1.n_chunks = 0 ∧ s.1.lit_lens = [] ∧ s.1.match_lens = []
        ∧ s.1.match_offsets = [] ∧ s.1.lits = raw.take s.2.2 ∧ s.2.1 = 0)
      ⟨rfl, rfl, rfl, rfl, rfl, rfl⟩
      (by
        rintro ⟨st, start, index⟩ inv ⟨h1, h2, h3, h4, h5, h6⟩ hc
        simp only at hc h1 h2 h3 h4 h5 h6
        have hm : get_match_len MAX_MAIN_PASS_MATCH_LEN raw raw.length index
            (st.last_bytepair_indexes (get_byte_pair raw index)) < MIN_MAIN_PASS_MATCH_LEN := by
          by_contra hge
          simp only [MIN_MAIN_PASS_MATCH_LEN, not_lt] at hge
          obtain ⟨g1, g2, g3⟩ := get_match_len_spec MAX_MAIN_PASS_MATCH_LEN raw raw.length
            index (st.last_bytepair_indexes (get_byte_pair raw index)) (by omega)
          have e0 := g3 0 (by omega)
          have e1 := g3 1 (by omega)
          simp only [Nat.add_zero] at e0
          exact hpair _ index g1 (by omega) ⟨e0.symm, e1.symm⟩
        rw [generate_turn_literal _ _ _ _ _ _ _ hm]
        simp only
        refine ⟨h1, h2, h3, h4, ?_, h6⟩
        rw [h5]
        exact take_append_getD raw index (by omega))
    obtain ⟨h1, h2, h3, h4, h5, h6⟩ := hP
    simp only at h1 h2 h3 h4 h5 h6
    subst h6
    rw [e]
    simp only
    refine ⟨h1, h2, h3, h4, ?_, ?_, by omega⟩
    · rw [h5, take_append_getD raw _ (by omega), show raw.length - 1 + 1 = raw.length by omega,
        List.take_length]
    · have := inv.n_lits_eq
      rw [h2] at this
      simp only [List.sum_nil] at this
      omega

/-- Witness of C12: the 256 bytes `0, 1, ..., 255`, in which no byte occurs twice. -/
theorem no_repeated_pair_all_literals_witness :
    (∀ i j, i < j → j + 1 < (List.finRange 256).length →
      ¬ ((List.finRange 256).getD i 0 = (List.finRange 256).getD j 0
        ∧ (List.finRange 256).getD (i + 1) 0 = (List.finRange 256).getD (j + 1) 0))
    ∧ (generate_chunks MIN_MAIN_PASS_MATCH_LEN MAX_MAIN_PASS_MATCH_LEN (init fun _ => 0)
        (List.finRange 256) (List.finRange 256).length).n_chunks = 0
    ∧ (generate_chunks MIN_MAIN_PASS_MATCH_LEN MAX_MAIN_PASS_MATCH_LEN (init fun _ => 0)
        (List.finRange 256) (List.finRange 256).length).lits = List.finRange 256
    ∧ (List.finRange 256).length = 256 :=
  have hp : ∀ i j, i < j → j + 1 < (List.finRange 256).length →
      ¬ ((List.finRange 256).getD i 0 = (List.finRange 256).getD j 0
        ∧ (List.finRange 256).getD (i + 1) 0 = (List.finRange 256).getD (j + 1) 0) := by
    intro i j hij hj h
    have hj2 : j < (List.finRange 256).length := by omega
    have hi2 : i < (List.finRange 256).length := by omega
    have h1 := h.1
    rw [List.getD_eq_getElem _ _ hi2, List.getD_eq_getElem _ _ hj2] at h1
    simp only [List.getElem_finRange] at h1
    have h2 : i = j := congrArg Fin.val h1
    omega
  ⟨hp,
    (no_repeated_pair_all_literals (fun _ => 0) (List.finRange 256) hp).1,
    (no_repeated_pair_all_literals (fun _ => 0) (List.finRange 256) hp).2.2.2.2.1,
    List.length_finRange 256⟩

/-! ## A single repeated byte -/

/-- Every byte of `n` copies of `b` read below `n` is `b`. -/
theorem getD_replicate_lt (n : Nat) (b : u8) (i : Nat) (h : i < n) :
    (List.replicate n b).getD i 0 = b := by
  rw [List.getD_eq_getElem _ _ (by rw [List.length_replicate]; exact h), List.getElem_replicate]

/-- On `n` copies of one byte the unbounded loop of `get_match_len` runs to the end of the
input. -/
theorem get_match_len_loop_replicate (n : Nat) (b : u8) (start_index fuel : Nat) :
    ∀ index match_index, match_index ≤ index → index ≤ n → n - index ≤ fuel →
      get_match_len_loop NO_MAX_MATCH_LEN (List.replicate n b) n start_index fuel index
        match_index = n := by
  induction fuel with
  | zero =>
    intro index match_index _ h2 h3
    rw [get_match_len_loop]
    omega
  | succ f ih =>
    intro index match_index h1 h2 h3
    rw [get_match_len_loop]
    by_cases hi : index < n
    · rw [if_pos ⟨hi, Or.inl rfl, by
        rw [getD_replicate_lt n b index hi, getD_replicate_lt n b match_index (by omega)]⟩]
      exact ih _ _ (by omega) (by omega) (by omega)
    · rw [if_neg (fun hc => hi hc.1)]
      omega

/-- C11, counterexample.  On `aaaaaaaa` the wide pass records one chunk whose literal
length is 1, not 0: the first byte has nothing behind it and is a literal. -/
theorem repeated_byte_literal_len_not_zero :
    (generate_chunks MIN_MAIN_PASS_MATCH_LEN MAX_MAIN_PASS_MATCH_LEN (init fun _ => 0)
        [97, 97, 97, 97, 97, 97, 97, 97] 8).lit_lens = [1]
    ∧ (generate_chunks MIN_MAIN_PASS_MATCH_LEN MAX_MAIN_PASS_MATCH_LEN (init fun _ => 0)
        [97, 97, 97, 97, 97, 97, 97, 97] 8).lit_lens ≠ [0] := by
  decide

/-- C11, amended (single repeated byte).  For every input of `n ≥ 5` copies of one byte and
every initial table the wide pass records exactly one chunk, with `literal_len = 1` (the
first byte, which has nothing behind it), `match_offset = 1` and `match_len = n - 1`: the
match extends as far as the repeat allows, to the end of the input. -/
theorem repeated_byte_one_chunk (table : Nat → Nat) (n : Nat) (b : u8) (hn : 5 ≤ n) :
    (generate_chunks MIN_MAIN_PASS_MATCH_LEN MAX_MAIN_PASS_MATCH_LEN (init table)
        (List.replicate n b) n).n_chunks = 1
    ∧ (generate_chunks MIN_MAIN_PASS_MATCH_LEN MAX_MAIN_PASS_MATCH_LEN (init table)
        (List.replicate n b) n).lit_lens = [1]
    ∧ (generate_chunks MIN_MAIN_PASS_MATCH_LEN MAX_MAIN_PASS_MATCH_LEN (init table)
        (List.replicate n b) n).match_offsets = [1]
    ∧ (generate_chunks MIN_MAIN_PASS_MATCH_LEN MAX_MAIN_PASS_MATCH_LEN (init table)
        (List.replicate n b) n).match_lens = [n - 1] := by
  have hkey : get_byte_pair (List.replicate n b) 1 = get_byte_pair (List.replicate n b) 0 := by
    unfold get_byte_pair
    rw [getD_replicate_lt n b 0 (by omega), getD_replicate_lt n b 1 (by omega),
      getD_replicate_lt n b (1 + 1) (by omega)]
  have hm : get_match_len MAX_MAIN_PASS_MATCH_LEN (List.replicate n b) n 1 0 = n - 1 := by
    unfold get_match_len
    rw [if_neg (by omega)]
    have := get_match_len_loop_replicate n b 1 (n - 1) 1 0 (by omega) (by omega) (by omega)
    rw [show MAX_MAIN_PASS_MATCH_LEN = NO_MAX_MATCH_LEN from rfl, this]
  obtain ⟨table1, h1⟩ := generate_loop_match_turn MIN_MAIN_PASS_MATCH_LEN
    MAX_MAIN_PASS_MATCH_LEN (List.replicate n b) n (n - 2)
    { init table with
      last_bytepair_indexes := set_index table (get_byte_pair (List.replicate n b) 0) 0
      lits := [(List.replicate n b).getD 0 0]
      n_lits := 1 } 0 1 0 (n - 1) (by omega) (set_index_same _ _ _ _ hkey) hm
    (by simp only [MIN_MAIN_PASS_MATCH_LEN]; omega) (by omega) (by omega) (by omega)
  have hs : min (1 + (n - 1)) (n - 1) = n - 1 := by omega
  rw [generate_chunks_first_turn MIN_MAIN_PASS_MATCH_LEN MAX_MAIN_PASS_MATCH_LEN table
    (List.replicate n b) n (n - 2) (by decide) (by omega), h1, hs,
    generate_loop_exit _ _ _ _ _ _ _ _ (by omega)]
  unfold generate_chunks_finish
  have e : sub32 n (n - 1) = 1 := by rw [sub32_of_le _ _ (by omega)]; omega
  simp only [e]
  rw [if_pos (by decide)]
  simp only [init, List.nil_append]
  simp

/-- Witness of the amended C11 at `n = 8`, the byte `a`. -/
theorem repeated_byte_one_chunk_witness :
    5 ≤ 8
    ∧ (generate_chunks MIN_MAIN_PASS_MATCH_LEN MAX_MAIN_PASS_MATCH_LEN (init fun _ => 0)
        (List.replicate 8 97) 8).lit_lens = [1]
    ∧ (generate_chunks MIN_MAIN_PASS_MATCH_LEN MAX_MAIN_PASS_MATCH_LEN (init fun _ => 0)
        (List.replicate 8 97) 8).match_lens = [8 - 1] :=
  ⟨by decide, (repeated_byte_one_chunk (fun _ => 0) 8 97 (by decide)).2.1,
    (repeated_byte_one_chunk (fun _ => 0) 8 97 (by decide)).2.2.2⟩

/-! ## The longest common run -/

/-- With enough fuel the loop of `get_match_len` stops for one of the three reasons of its
test: the end of the input, the bound on the match length (as the `u32` sum
`start_index + MAX_MATCH_LEN`), or two bytes that differ. -/
theorem get_match_len_loop_stop (MAX_MATCH_LEN : Nat) (raw : List u8)
    (raw_len start_index fuel : Nat) :
    ∀ index match_index, raw_len - index ≤ fuel →
      raw_len ≤ get_match_len_loop MAX_MATCH_LEN raw raw_len start_index fuel index match_index
      ∨ (MAX_MATCH_LEN ≠ NO_MAX_MATCH_LEN
        ∧ (start_index + MAX_MATCH_LEN) % 2 ^ 32
          ≤ get_match_len_loop MAX_MATCH_LEN raw raw_len start_index fuel index match_index)
      ∨ raw.getD
          (get_match_len_loop MAX_MATCH_LEN raw raw_len start_index fuel index match_index) 0
        ≠ raw.getD (match_index
          + (get_match_len_loop MAX_MATCH_LEN raw raw_len start_index fuel index match_index
            - index)) 0 := by
  induction fuel with
  | zero =>
    intro index match_index h
    left
    rw [get_match_len_loop]
    omega
  | succ f ih =>
    intro index match_index h
    rw [get_match_len_loop]
    split
    · have h1 := (get_match_len_loop_spec MAX_MATCH_LEN raw raw_len start_index f
        (index + 1) (match_index + 1)).1
      rcases ih (index + 1) (match_index + 1) (by omega) with g | g | g
      · exact Or.inl g
      · exact Or.inr (Or.inl g)
      · right; right
        rw [show match_index + (get_match_len_loop MAX_MATCH_LEN raw raw_len start_index f
            (index + 1) (match_index + 1) - index)
          = match_index + 1 + (get_match_len_loop MAX_MATCH_LEN raw raw_len start_index f
            (index + 1) (match_index + 1) - (index + 1)) by omega]
        exact g
    · rename_i hc
      by_cases h1 : index < raw_len
      · by_cases h2 : MAX_MATCH_LEN = NO_MAX_MATCH_LEN
            ∨ index < (start_index + MAX_MATCH_LEN) % 2 ^ 32
        · right; right
          rw [Nat.sub_self, Nat.add_zero]
          exact fun h3 => hc ⟨h1, h2, h3⟩
        · right; left
          exact ⟨fun h3 => h2 (Or.inl h3), by
            have := fun h3 => h2 (Or.inr h3)
            omega⟩
      · left; omega

/-- Where the `u32` sum `index + MAX_MATCH_LEN` does not wrap (or the pass has no bound),
`get_match_len` returns the longest common run: no longer run that stays inside the
input and within the bound has equal bytes throughout. -/
theorem get_match_len_maximal (MAX_MATCH_LEN : Nat) (raw : List u8)
    (raw_len index match_index : Nat) (hp : match_index < index)
    (hw : MAX_MATCH_LEN = NO_MAX_MATCH_LEN ∨ index + MAX_MATCH_LEN < 2 ^ 32)
    (L : Nat) (h1 : index + L ≤ raw_len)
    (h2 : MAX_MATCH_LEN ≠ NO_MAX_MATCH_LEN → L ≤ MAX_MATCH_LEN)
    (h3 : ∀ k, k < L → raw.getD (index + k) 0 = raw.getD (match_index + k) 0) :
    L ≤ get_match_len MAX_MATCH_LEN raw raw_len index match_index := by
  unfold get_match_len
  rw [if_neg (by omega)]
  have hs := (get_match_len_loop_spec MAX_MATCH_LEN raw raw_len index (raw_len - index)
    index match_index).1
  by_contra hlt
  rcases get_match_len_loop_stop MAX_MATCH_LEN raw raw_len index (raw_len - index) index
    match_index (le_refl _) with g | g | g
  · omega
  · rcases hw with hw | hw
    · exact g.1 hw
    · have := h2 g.1
      rw [Nat.mod_eq_of_lt hw] at g
      omega
  · apply g
    have := h3 (get_match_len_loop MAX_MATCH_LEN raw raw_len index (raw_len - index) index
      match_index - index) (by omega)
    rw [show index + (get_match_len_loop MAX_MATCH_LEN raw raw_len index (raw_len - index)
      index match_index - index) = get_match_len_loop MAX_MATCH_LEN raw raw_len index
        (raw_len - index) index match_index by omega] at this
    exact this

/-- C16, failing input.  In the 3-byte pass (`MAX_MATCH_LEN = 3`), on an input of
`4294967295` zero bytes, at `i = 4294967293` with `p = 0`: the run of length 2 stays inside
the input, is within the bound, and its bytes are equal, but the `u32` sum
`start_index + MAX_MATCH_LEN` wraps to 0, the loop test `index < 0` fails at once and
`get_match_len` returns 0. -/
theorem get_match_len_bound_wraps :
    get_match_len MAX_3BYTE_PASS_MATCH_LEN (List.replicate 4294967295 0) 4294967295
        4294967293 0 = 0
    ∧ (4294967293 + MAX_3BYTE_PASS_MATCH_LEN) % 2 ^ 32 = 0
    ∧ 0 < 4294967293 ∧ 4294967293 < 4294967295
    ∧ 4294967293 + 2 ≤ 4294967295 ∧ 2 ≤ MAX_3BYTE_PASS_MATCH_LEN
    ∧ (List.replicate 4294967295 (0 : u8)).getD (4294967293 + 0) 0
      = (List.replicate 4294967295 (0 : u8)).getD (0 + 0) 0
    ∧ (List.replicate 4294967295 (0 : u8)).getD (4294967293 + 1) 0
      = (List.replicate 4294967295 (0 : u8)).getD (0 + 1) 0 := by
  refine ⟨?_, by decide, by decide, by decide, by decide, by decide, ?_, ?_⟩
  · unfold get_match_len
    rw [if_neg (by decide), show 4294967295 - 4294967293 = 1 + 1 from rfl, get_match_len_loop,
      if_neg (fun hc => by
        rcases hc.2.1 with h | h
        · exact absurd h (by decide)
        · exact absurd h (by decide))]
  · rw [getD_replicate_lt _ _ _ (by decide), getD_replicate_lt _ _ _ (by decide)]
  · rw [getD_replicate_lt _ _ _ (by decide), getD_replicate_lt _ _ _ (by decide)]

/-! ## The byte-pair table -/

/-- The key of a position is its two bytes, the first one in the high byte. -/
theorem get_byte_pair_eq (raw : List u8) (i : Nat) :
    get_byte_pair raw i = 256 * (raw.getD i 0).val + (raw.getD (i + 1) 0).val := by
  unfold get_byte_pair
  have h2 := Nat.mul_add_lt_is_or (i := 8) (b := (raw.getD (i + 1) 0).val)
    (by simp) (raw.getD i 0).val
  have ha := (raw.getD i 0).isLt
  have hb := (raw.getD (i + 1) 0).isLt
  rw [Nat.shiftLeft_eq, Nat.mul_comm, ← h2]
  simp only [Nat.reducePow]
  omega

/-- Two positions have the same key exactly when they hold the same two bytes. -/
theorem get_byte_pair_inj (raw : List u8) (i j : Nat) :
    get_byte_pair raw i = get_byte_pair raw j
      ↔ raw.getD i 0 = raw.getD j 0 ∧ raw.getD (i + 1) 0 = raw.getD (j + 1) 0 := by
  rw [get_byte_pair_eq, get_byte_pair_eq]
  have ha := (raw.getD i 0).isLt
  have hb := (raw.getD (i + 1) 0).isLt
  have hc := (raw.getD j 0).isLt
  have hd := (raw.getD (j + 1) 0).isLt
  constructor
  · intro h
    exact ⟨Fin.ext (by omega), Fin.ext (by omega)⟩
  · rintro ⟨h1, h2⟩
    rw [h1, h2]

/-- The table is as it should on entry to the loop. -/
theorem table_ok_init (raw : List u8) (table : Nat → Nat) : table_ok raw table table 0 :=
  fun _ => Or.inr ⟨fun j hj => absurd hj (Nat.not_lt_zero j), rfl⟩

/-- Storing position `i` under its own key moves the table on by one position. -/
theorem table_ok_set (raw : List u8) (table0 tbl : Nat → Nat) (i : Nat)
    (h : table_ok raw table0 tbl i) :
    table_ok raw table0 (set_index tbl (get_byte_pair raw i) i) (i + 1) := by
  intro key
  by_cases hk : key = get_byte_pair raw i
  · left
    exact ⟨i, by omega, hk.symm, set_index_same _ _ _ _ hk, fun j2 hj2 _ => by omega⟩
  · rw [set_index_other _ _ _ _ hk]
    rcases h key with ⟨j, h1, h2, h3, h4⟩ | ⟨h1, h2⟩
    · left
      refine ⟨j, by omega, h2, h3, ?_⟩
      intro j2 hj2 hj3
      by_cases hji : j2 = i
      · subst hji
        exact absurd hj3.symm hk
      · exact h4 j2 (by omega) hj3
    · right
      refine ⟨?_, h2⟩
      intro j hj hj3
      by_cases hji : j = i
      · subst hji
        exact hk hj3.symm
      · exact h1 j (by omega) hj3

/-- The skip loop stores every position it passes: the table is as it should at the
position where it stops. -/
theorem table_ok_skip_loop (raw : List u8) (table0 : Nat → Nat) (start_lit_index fuel : Nat) :
    ∀ tbl index, index ≤ start_lit_index → start_lit_index - index ≤ fuel →
      table_ok raw table0 tbl index →
      table_ok raw table0 (skip_loop raw start_lit_index fuel tbl index).1 start_lit_index := by
  induction fuel with
  | zero =>
    intro tbl index h1 h2 h
    rw [skip_loop]
    rw [show start_lit_index = index by omega]
    exact h
  | succ f ih =>
    intro tbl index h1 h2 h
    rw [skip_loop]
    split
    · exact ih _ _ (by omega) (by omega) (table_ok_set raw table0 tbl index h)
    · rw [show start_lit_index = index by omega]
      exact h

/-- Every turn of the main loop keeps the table as it should. -/
theorem table_ok_turn (MIN_MATCH_LEN MAX_MATCH_LEN : Nat) (raw : List u8) (raw_len : Nat)
    (hmin : 1 ≤ MIN_MATCH_LEN) (table0 : Nat → Nat) (s : Lz4pjCState × Nat × Nat)
    (h : table_ok raw table0 s.1.last_bytepair_indexes s.2.2) (hc : s.2.2 < raw_len - 1) :
    table_ok raw table0
      (generate_turn MIN_MATCH_LEN MAX_MATCH_LEN raw raw_len s).1.last_bytepair_indexes
      (generate_turn MIN_MATCH_LEN MAX_MATCH_LEN raw raw_len s).2.2 := by
  obtain ⟨st, start, index⟩ := s
  simp only at h hc
  by_cases hm : MIN_MATCH_LEN ≤ get_match_len MAX_MATCH_LEN raw raw_len index
      (st.last_bytepair_indexes (get_byte_pair raw index))
  · rw [generate_turn_match _ _ _ _ _ _ _ hc hm (by omega)]
    simp only
    exact table_ok_skip_loop raw table0 _ raw_len _ (index + 1) (by omega) (by omega)
      (table_ok_set raw table0 _ index h)
  · rw [generate_turn_literal _ _ _ _ _ _ _ (by omega)]
    exact table_ok_set raw table0 _ index h

/-- C15 (match-finder invariant).  In every pass (`MIN_MATCH_LEN ≥ 1`), for every input
and initial table, at the exit test of the main loop after any number `k` of turns, with
the scan at position `i`: for every key that occurs at some position `j < i`,
`last_bytepair_indexes[key]` is the greatest such `j`, positions inside accepted matches
included, and every other slot holds its initial value.  Hence, when a turn starts at `i`,
the match candidate it reads is the greatest `j < i` holding the two bytes of position `i`,
or, when there is none, the initial value of the slot. -/
theorem last_bytepair_indexes_most_recent (MIN_MATCH_LEN MAX_MATCH_LEN : Nat)
    (hmin : 1 ≤ MIN_MATCH_LEN) (table : Nat → Nat) (raw : List u8) (k : Nat) :
    table_ok raw table
      (generate_head MIN_MATCH_LEN MAX_MATCH_LEN raw raw.length k
        (init table, 0, 0)).1.last_bytepair_indexes
      (generate_head MIN_MATCH_LEN MAX_MATCH_LEN raw raw.length k (init table, 0, 0)).2.2
    ∧ ((∃ j, j < (generate_head MIN_MATCH_LEN MAX_MATCH_LEN raw raw.length k
            (init table, 0, 0)).2.2
        ∧ (generate_head MIN_MATCH_LEN MAX_MATCH_LEN raw raw.length k
            (init table, 0, 0)).1.last_bytepair_indexes
          (get_byte_pair raw (generate_head MIN_MATCH_LEN MAX_MATCH_LEN raw raw.length k
            (init table, 0, 0)).2.2) = j
        ∧ raw.getD j 0 = raw.getD (generate_head MIN_MATCH_LEN MAX_MATCH_LEN raw raw.length k
            (init table, 0, 0)).2.2 0
        ∧ raw.getD (j + 1) 0 = raw.getD ((generate_head MIN_MATCH_LEN MAX_MATCH_LEN raw
            raw.length k (init table, 0, 0)).2.2 + 1) 0
        ∧ ∀ j2, j2 < (generate_head MIN_MATCH_LEN MAX_MATCH_LEN raw raw.length k
              (init table, 0, 0)).2.2 →
            raw.getD j2 0 = raw.getD (generate_head MIN_MATCH_LEN MAX_MATCH_LEN raw raw.length k
              (init table, 0, 0)).2.2 0 →
            raw.getD (j2 + 1) 0 = raw.getD ((generate_head MIN_MATCH_LEN MAX_MATCH_LEN raw
              raw.length k (init table, 0, 0)).2.2 + 1) 0 →
            j2 ≤ j)
      ∨ ((∀ j, j < (generate_head MIN_MATCH_LEN MAX_MATCH_LEN raw raw.length k
              (init table, 0, 0)).2.2 →
            ¬ (raw.getD j 0 = raw.getD (generate_head MIN_MATCH_LEN MAX_MATCH_LEN raw
                raw.length k (init table, 0, 0)).2.2 0
              ∧ raw.getD (j + 1) 0 = raw.getD ((generate_head MIN_MATCH_LEN MAX_MATCH_LEN raw
                raw.length k (init table, 0, 0)).2.2 + 1) 0))
        ∧ (generate_head MIN_MATCH_LEN MAX_MATCH_LEN raw raw.length k
            (init table, 0, 0)).1.last_bytepair_indexes
          (get_byte_pair raw (generate_head MIN_MATCH_LEN MAX_MATCH_LEN raw raw.length k
            (init table, 0, 0)).2.2)
          = table (get_byte_pair raw (generate_head MIN_MATCH_LEN MAX_MATCH_LEN raw raw.length k
            (init table, 0, 0)).2.2))) := by
  have h := generate_head_invariant MIN_MATCH_LEN MAX_MATCH_LEN raw raw.length
    (fun s => table_ok raw table s.1.last_bytepair_indexes s.2.2)
    (fun s hs hc => table_ok_turn MIN_MATCH_LEN MAX_MATCH_LEN raw raw.length hmin table s hs hc)
    k (init table, 0, 0) (table_ok_init raw table)
  simp only at h
  refine ⟨h, ?_⟩
  generalize generate_head MIN_MATCH_LEN MAX_MATCH_LEN raw raw.length k (init table, 0, 0)
    = s at h
  rcases h (get_byte_pair raw s.2.2) with ⟨j, h1, h2, h3, h4⟩ | ⟨h1, h2⟩
  · left
    rw [get_byte_pair_inj] at h2
    refine ⟨j, h1, h3, h2.1, h2.2, ?_⟩
    intro j2 g1 g2 g3
    exact h4 j2 g1 ((get_byte_pair_inj raw j2 s.2.2).mpr ⟨g2, g3⟩)
  · right
    refine ⟨?_, h2⟩
    intro j hj hb
    exact h1 j hj ((get_byte_pair_inj raw j s.2.2).mpr hb)

/-- Witness of C15: the wide pass on `1 2 3 4 1 2 3 4 1 2 3 4 5` after five turns.  The
fifth turn accepted the match of 8 bytes at position 4 and the scan is at position 12; the
slot of the pair `1 2` holds 8, a position inside that match. -/
theorem last_bytepair_indexes_most_recent_witness :
    1 ≤ MIN_MAIN_PASS_MATCH_LEN
    ∧ table_ok [1, 2, 3, 4, 1, 2, 3, 4, 1, 2, 3, 4, 5] (fun _ => 0)
      (generate_head MIN_MAIN_PASS_MATCH_LEN MAX_MAIN_PASS_MATCH_LEN
        [1, 2, 3, 4, 1, 2, 3, 4, 1, 2, 3, 4, 5]
        ([1, 2, 3, 4, 1, 2, 3, 4, 1, 2, 3, 4, 5] : List u8).length 5
        (init fun _ => 0, 0, 0)).1.last_bytepair_indexes
      (generate_head MIN_MAIN_PASS_MATCH_LEN MAX_MAIN_PASS_MATCH_LEN
        [1, 2, 3, 4, 1, 2, 3, 4, 1, 2, 3, 4, 5]
        ([1, 2, 3, 4, 1, 2, 3, 4, 1, 2, 3, 4, 5] : List u8).length 5
        (init fun _ => 0, 0, 0)).2.2
    ∧ (generate_head MIN_MAIN_PASS_MATCH_LEN MAX_MAIN_PASS_MATCH_LEN
        [1, 2, 3, 4, 1, 2, 3, 4, 1, 2, 3, 4, 5] 13 5 (init fun _ => 0, 0, 0)).2.2 = 12
    ∧ (generate_head MIN_MAIN_PASS_MATCH_LEN MAX_MAIN_PASS_MATCH_LEN
        [1, 2, 3, 4, 1, 2, 3, 4, 1, 2, 3, 4, 5] 13 5
        (init fun _ => 0, 0, 0)).1.last_bytepair_indexes 258 = 8 :=
  ⟨by decide,
    (last_bytepair_indexes_most_recent MIN_MAIN_PASS_MATCH_LEN MAX_MAIN_PASS_MATCH_LEN
      (by decide) (fun _ => 0) [1, 2, 3, 4, 1, 2, 3, 4, 1, 2, 3, 4, 5] 5).1,
    by decide, by decide⟩

/-! ## Replay of the chunk list -/

/-- Reading a byte list as numbers commutes with `getD`. -/
theorem getD_map_val (raw : List u8) (i : Nat) :
    (raw.map Fin.val).getD i 0 = (raw.getD i 0).val := by
  by_cases h : i < raw.length
  · rw [List.getD_eq_getElem _ _ (by rw [List.length_map]; exact h), List.getD_eq_getElem _ _ h,
      List.getElem_map]
  · rw [List.getD_eq_default _ _ (by rw [List.length_map]; omega),
      List.getD_eq_default _ _ (by omega)]
    rfl

/-- A literal run grows by the byte behind it. -/
theorem drop_take_succ (raw : List u8) (s k : Nat) (h : s + k < raw.length) :
    (raw.drop s).take (k + 1) = (raw.drop s).take k ++ [raw.getD (s + k) 0] := by
  rw [← take_append_getD (raw.drop s) k (by rw [List.length_drop]; omega)]
  congr 2
  rw [List.getD_eq_getElem _ _ (by rw [List.length_drop]; omega), List.getD_eq_getElem _ _ h,
    List.getElem_drop]

/-- The match copy, started behind the first `i` values of a list whose values from `i` on
repeat those `d` places earlier, yields the first `i + m` values of the list. -/
theorem spec_copy_match_take (l : List Nat) (d : Nat) (hd : 1 ≤ d) :
    ∀ m i, d ≤ i → i + m ≤ l.length →
      (∀ k, k < m → l.getD (i + k) 0 = l.getD (i - d + k) 0) →
      spec_copy_match d m (l.take i) = some (l.take (i + m)) := by
  intro m
  induction m with
  | zero =>
    intro i _ _ _
    rfl
  | succ m ih =>
    intro i h1 h2 h3
    have hlen : (l.take i).length = i := by rw [List.length_take]; omega
    rw [spec_copy_match, if_pos ⟨hd, by rw [hlen]; exact h1⟩, hlen]
    have e0 := h3 0 (by omega)
    simp only [Nat.add_zero] at e0
    have e1 : (l.take i).getD (i - d) 0 = l.getD (i - d) 0 := by
      have hid : i - d < i := by omega
      simp [List.getD_eq_getElem?_getD, List.getElem?_take, hid]
    have e2 : l.take i ++ [l.getD i 0] = l.take (i + 1) := by
      rw [List.take_succ, List.getD_eq_getElem _ _ (by omega),
        List.getElem?_eq_getElem (by omega)]
      rfl
    rw [e1, ← e0, e2, show i + (m + 1) = i + 1 + m by omega]
    apply ih (i + 1) (by omega) (by omega)
    intro k hk
    have := h3 (k + 1) (by omega)
    rw [show i + 1 + k = i + (k + 1) by omega, show i + 1 - d + k = i - d + (k + 1) by omega]
    exact this

/-- The replay of the chunks with one more chunk at the end: the replay of the earlier
chunks, then the literals and the match copy of the last one. -/
theorem spec_replay_chunks_snoc (literals : List Nat) (l m o : Nat) (u : Nat) (o1 o2 : List Nat)
    (hu : u + l ≤ literals.length)
    (hcopy : spec_copy_match o m (o1 ++ (literals.drop u).take l) = some o2) :
    ∀ (ls ms os : List Nat) (used : Nat) (out : List Nat),
      ls.length = ms.length → ms.length = os.length →
      spec_replay_chunks literals ls ms os used out = some (u, o1) →
      spec_replay_chunks literals (ls ++ [l]) (ms ++ [m]) (os ++ [o]) used out
        = some (u + l, o2) := by
  intro ls
  induction ls with
  | nil =>
    intro ms os used out h1 h2 h
    have hm : ms = [] := List.length_eq_zero.mp h1.symm
    subst hm
    have ho : os = [] := List.length_eq_zero.mp h2.symm
    subst ho
    simp only [spec_replay_chunks, Option.some.injEq, Prod.mk.injEq] at h
    obtain ⟨rfl, rfl⟩ := h
    simp only [List.nil_append, spec_replay_chunks, if_pos hu, hcopy]
  | cons l0 ls ih =>
    intro ms os used out h1 h2 h
    cases ms with
    | nil => simp at h1
    | cons m0 ms =>
      cases os with
      | nil => simp at h2
      | cons o0 os =>
        simp only [List.length_cons, Nat.add_right_cancel_iff] at h1 h2
        simp only [List.cons_append, spec_replay_chunks] at h ⊢
        by_cases hc : used + l0 ≤ literals.length
        · rw [if_pos hc] at h ⊢
          cases hx : spec_copy_match o0 m0 (out ++ (literals.drop used).take l0) with
          | none => rw [hx] at h; simp at h
          | some x =>
            rw [hx] at h
            simp only at h ⊢
            exact ih ms os _ _ h1 h2 h
        · rw [if_neg hc] at h
          simp at h

/-- The replay is the replay of the chunks followed by the trailing literals. -/
theorem spec_replay_of_chunks (literals : List Nat) (trailing : Nat) (u : Nat) (o1 : List Nat) :
    ∀ (ls ms os : List Nat) (used : Nat) (out : List Nat),
      ls.length = ms.length → ms.length = os.length →
      spec_replay_chunks literals ls ms os used out = some (u, o1) →
      spec_replay literals trailing ls ms os used out
        = if u + trailing ≤ literals.length then
            some (o1 ++ (literals.drop u).take trailing)
          else none := by
  intro ls
  induction ls with
  | nil =>
    intro ms os used out h1 h2 h
    have hm : ms = [] := List.length_eq_zero.mp h1.symm
    subst hm
    have ho : os = [] := List.length_eq_zero.mp h2.symm
    subst ho
    simp only [spec_replay_chunks, Option.some.injEq, Prod.mk.injEq] at h
    obtain ⟨rfl, rfl⟩ := h
    simp only [spec_replay]
  | cons l0 ls ih =>
    intro ms os used out h1 h2 h
    cases ms with
    | nil => simp at h1
    | cons m0 ms =>
      cases os with
      | nil => simp at h2
      | cons o0 os =>
        simp only [List.length_cons, Nat.add_right_cancel_iff] at h1 h2
        simp only [spec_replay_chunks] at h
        simp only [spec_replay]
        by_cases hc : used + l0 ≤ literals.length
        · rw [if_pos hc] at h ⊢
          cases hx : spec_copy_match o0 m0 (out ++ (literals.drop used).take l0) with
          | none => rw [hx] at h; simp at h
          | some x =>
            rw [hx] at h
            simp only at h ⊢
            exact ih ms os _ _ h1 h2 h
        · rw [if_neg hc] at h
          simp at h

/-- Invariant of the replay, kept by every turn of the main loop: the literal buffer is
the literals of the chunks followed by the current literal run, and the replay of the
chunks, whatever follows their literals in the buffer, consumes exactly their literals
and yields the input up to the end of the last match. -/
theorem replay_turn (MIN_MATCH_LEN MAX_MATCH_LEN : Nat) (raw : List u8)
    (hmin : 1 ≤ MIN_MATCH_LEN) (s : Lz4pjCState × Nat × Nat)
    (inv : LoopInv MIN_MATCH_LEN raw raw.length s.1 s.2.1 s.2.2)
    (hP : ∃ L : List u8, s.1.lits = L ++ (raw.drop s.2.1).take (s.2.2 - s.2.1)
      ∧ L.length = s.1.lit_lens.sum
      ∧ ∀ ext : List Nat,
        spec_replay_chunks (L.map Fin.val ++ ext) s.1.lit_lens s.1.match_lens
            s.1.match_offsets 0 []
          = some (s.1.lit_lens.sum,
              (raw.map Fin.val).take (s.1.lit_lens.sum + s.1.match_lens.sum)))
    (hc : s.2.2 < raw.length - 1) :
    ∃ L : List u8,
      (generate_turn MIN_MATCH_LEN MAX_MATCH_LEN raw raw.length s).1.lits
        = L ++ (raw.drop (generate_turn MIN_MATCH_LEN MAX_MATCH_LEN raw raw.length s).2.1).take
            ((generate_turn MIN_MATCH_LEN MAX_MATCH_LEN raw raw.length s).2.2
              - (generate_turn MIN_MATCH_LEN MAX_MATCH_LEN raw raw.length s).2.1)
      ∧ L.length = (generate_turn MIN_MATCH_LEN MAX_MATCH_LEN raw raw.length s).1.lit_lens.sum
      ∧ ∀ ext : List Nat,
        spec_replay_chunks (L.map Fin.val ++ ext)
            (generate_turn MIN_MATCH_LEN MAX_MATCH_LEN raw raw.length s).1.lit_lens
            (generate_turn MIN_MATCH_LEN MAX_MATCH_LEN raw raw.length s).1.match_lens
            (generate_turn MIN_MATCH_LEN MAX_MATCH_LEN raw raw.length s).1.match_offsets 0 []
          = some ((generate_turn MIN_MATCH_LEN MAX_MATCH_LEN raw raw.length s).1.lit_lens.sum,
              (raw.map Fin.val).take
                ((generate_turn MIN_MATCH_LEN MAX_MATCH_LEN raw raw.length s).1.lit_lens.sum
                  + (generate_turn MIN_MATCH_LEN MAX_MATCH_LEN raw raw.length
                      s).1.match_lens.sum)) := by
  obtain ⟨st, start, index⟩ := s
  obtain ⟨L, hl, hL, hr⟩ := hP
  simp only at inv hl hL hr hc
  have hs := inv.start_le
  by_cases hm : MIN_MATCH_LEN ≤ get_match_len MAX_MATCH_LEN raw raw.length index
      (st.last_bytepair_indexes (get_byte_pair raw index))
  · rw [generate_turn_match _ _ _ _ _ _ _ hc hm (by omega)]
    obtain ⟨g1, g2, g3⟩ := get_match_len_spec MAX_MATCH_LEN raw raw.length index
      (st.last_bytepair_indexes (get_byte_pair raw index)) (by omega)
    generalize get_match_len MAX_MATCH_LEN raw raw.length index
      (st.last_bytepair_indexes (get_byte_pair raw index)) = m at hm g2 g3
    generalize st.last_bytepair_indexes (get_byte_pair raw index) = p at g1 g3
    have hcov : st.lit_lens.sum + st.match_lens.sum = start := by
      rcases inv.covered with h | h
      · exact h
      · omega
    have e1 : sub32 index start = index - start := sub32_of_le _ _ hs
    have e2 : sub32 index p = index - p := sub32_of_le _ _ (by omega)
    have hn : st.lits.length = st.lit_lens.sum + (index - start) := by
      rw [inv.len_lits, inv.n_lits_eq]
    have hrun : ((raw.drop start).take (index - start)).length = index - start := by
      rw [List.length_take, List.length_drop]
      omega
    simp only [e1, e2, Nat.sub_self, List.take_zero, List.append_nil]
    refine ⟨st.lits, rfl, ?_, ?_⟩
    · rw [List.sum_append, hn]
      simp
    · intro ext
      have hsum : (st.lit_lens ++ [index - start]).sum + (st.match_lens ++ [m]).sum
          = index + m := by
        simp only [List.sum_append, List.sum_cons, List.sum_nil]
        omega
      have hsum1 : (st.lit_lens ++ [index - start]).sum = st.lit_lens.sum + (index - start) := by
        simp only [List.sum_append, List.sum_cons, List.sum_nil, Nat.add_zero]
      rw [hsum, hsum1]
      have hlits : st.lits.map Fin.val ++ ext
          = L.map Fin.val ++ (((raw.drop start).take (index - start)).map Fin.val ++ ext) := by
        rw [hl, List.map_append, List.append_assoc]
      have hold := hr (((raw.drop start).take (index - start)).map Fin.val ++ ext)
      rw [← hlits, hcov] at hold
      refine spec_replay_chunks_snoc _ _ _ _ _ _ _ ?_ ?_ _ _ _ _ _
        (by rw [inv.len_lit, inv.len_match]) (by rw [inv.len_match, inv.len_off]) hold
      · rw [List.length_append, List.length_map, hn]
        omega
      · have hd : (st.lits.map Fin.val ++ ext).drop st.lit_lens.sum
            = ((raw.drop start).take (index - start)).map Fin.val ++ ext := by
          rw [hlits, ← hL, ← List.length_map L Fin.val, List.drop_left]
        have ht : (((raw.drop start).take (index - start)).map Fin.val ++ ext).take
            (index - start) = ((raw.map Fin.val).drop start).take (index - start) := by
          rw [List.take_left' (by rw [List.length_map, hrun]), List.map_take, List.map_drop]
        have hj : (raw.map Fin.val).take start
            ++ ((raw.map Fin.val).drop start).take (index - start)
            = (raw.map Fin.val).take index := by
          rw [← List.take_add, show start + (index - start) = index by omega]
        rw [hd, ht, hj]
        apply spec_copy_match_take (raw.map Fin.val) (index - p) (by omega) m index
          (by omega) (by rw [List.length_map]; exact g2)
        intro k hk
        rw [getD_map_val, getD_map_val, show index - (index - p) + k = p + k by omega,
          g3 k hk]
  · rw [generate_turn_literal _ _ _ _ _ _ _ (by omega)]
    simp only
    refine ⟨L, ?_, hL, hr⟩
    rw [hl, show index + 1 - start = index - start + 1 by omega,
      drop_take_succ raw start (index - start) (by omega),
      show start + (index - start) = index by omega, List.append_assoc]

/-- C19 (replay prefix property).  For every non-empty input and every initial table, the
replay of the result of the wide pass returns: its chunks consume `used` literals, the
trailing run the `trailing_lit_len` that remain, `n_lits` in all, which is the length of
the literal buffer; the output has the input as a prefix and is `raw_len` or `raw_len + 1`
bytes long; and `trailing_lit_len ≥ 1`. -/
theorem wide_pass_replay_prefix (table : Nat → Nat) (raw : List u8) (hpos : 0 < raw.length) :
    ∃ used out1 out,
      spec_replay_chunks
          (List.map Fin.val
            (generate_chunks MIN_MAIN_PASS_MATCH_LEN MAX_MAIN_PASS_MATCH_LEN (init table)
              raw raw.length).lits)
          (generate_chunks MIN_MAIN_PASS_MATCH_LEN MAX_MAIN_PASS_MATCH_LEN (init table)
            raw raw.length).lit_lens
          (generate_chunks MIN_MAIN_PASS_MATCH_LEN MAX_MAIN_PASS_MATCH_LEN (init table)
            raw raw.length).match_lens
          (generate_chunks MIN_MAIN_PASS_MATCH_LEN MAX_MAIN_PASS_MATCH_LEN (init table)
            raw raw.length).match_offsets 0 [] = some (used, out1)
      ∧ used = List.sum
          (generate_chunks MIN_MAIN_PASS_MATCH_LEN MAX_MAIN_PASS_MATCH_LEN (init table)
            raw raw.length).lit_lens
      ∧ used
          + (generate_chunks MIN_MAIN_PASS_MATCH_LEN MAX_MAIN_PASS_MATCH_LEN (init table)
              raw raw.length).trailing_lit_len
        = (generate_chunks MIN_MAIN_PASS_MATCH_LEN MAX_MAIN_PASS_MATCH_LEN (init table)
            raw raw.length).n_lits
      ∧ List.length
          (generate_chunks MIN_MAIN_PASS_MATCH_LEN MAX_MAIN_PASS_MATCH_LEN (init table)
            raw raw.length).lits
        = (generate_chunks MIN_MAIN_PASS_MATCH_LEN MAX_MAIN_PASS_MATCH_LEN (init table)
            raw raw.length).n_lits
      ∧ spec_replay
          (List.map Fin.val
            (generate_chunks MIN_MAIN_PASS_MATCH_LEN MAX_MAIN_PASS_MATCH_LEN (init table)
              raw raw.length).lits)
          (generate_chunks MIN_MAIN_PASS_MATCH_LEN MAX_MAIN_PASS_MATCH_LEN (init table)
            raw raw.length).trailing_lit_len
          (generate_chunks MIN_MAIN_PASS_MATCH_LEN MAX_MAIN_PASS_MATCH_LEN (init table)
            raw raw.length).lit_lens
          (generate_chunks MIN_MAIN_PASS_MATCH_LEN MAX_MAIN_PASS_MATCH_LEN (init table)
            raw raw.length).match_lens
          (generate_chunks MIN_MAIN_PASS_MATCH_LEN MAX_MAIN_PASS_MATCH_LEN (init table)
            raw raw.length).match_offsets 0 [] = some out
      ∧ raw.map Fin.val <+: out
      ∧ (out.length = raw.length ∨ out.length = raw.length + 1)
      ∧ 1 ≤ (generate_chunks MIN_MAIN_PASS_MATCH_LEN MAX_MAIN_PASS_MATCH_LEN (init table)
          raw raw.length).trailing_lit_len := by
  obtain ⟨st1, start, inv, ⟨L, hl, hL, hr⟩, e⟩ := generate_chunks_invariant
    MIN_MAIN_PASS_MATCH_LEN MAX_MAIN_PASS_MATCH_LEN table raw raw.length hpos (by decide)
    (fun s => ∃ L : List u8, s.1.lits = L ++ (raw.drop s.2.1).take (s.2.2 - s.2.1)
      ∧ L.length = s.1.lit_lens.sum
      ∧ ∀ ext : List Nat,
        spec_replay_chunks (L.map Fin.val ++ ext) s.1.lit_lens s.1.match_lens
            s.1.match_offsets 0 []
          = some (s.1.lit_lens.sum,
              (raw.map Fin.val).take (s.1.lit_lens.sum + s.1.match_lens.sum)))
    ⟨[], rfl, rfl, fun ext => rfl⟩
    (fun s inv hP hc => replay_turn MIN_MAIN_PASS_MATCH_LEN MAX_MAIN_PASS_MATCH_LEN raw
      (by decide) s inv hP hc)
  simp only at hl hL hr
  have hs := inv.start_le
  have hlits : st1.lits ++ [raw.getD (raw.length - 1) 0] = L ++ raw.drop start := by
    have h1 := drop_take_succ raw start (raw.length - 1 - start) (by omega)
    rw [show start + (raw.length - 1 - start) = raw.length - 1 by omega,
      List.take_of_length_le (by rw [List.length_drop]; omega)] at h1
    rw [hl, List.append_assoc, ← h1]
  have hn : st1.n_lits = st1.lit_lens.sum + (raw.length - 1 - start) := inv.n_lits_eq
  have hchunks := hr ((raw.drop start).map Fin.val)
  rw [← List.map_append, ← hlits] at hchunks
  have hfull := spec_replay_of_chunks _ (raw.length - start) _ _ _ _ _ _ _
    (by rw [inv.len_lit, inv.len_match]) (by rw [inv.len_match, inv.len_off]) hchunks
  have hlen : ((st1.lits ++ [raw.getD (raw.length - 1) 0]).map Fin.val).length
      = st1.lit_lens.sum + (raw.length - start) := by
    rw [List.length_map, List.length_append, inv.len_lits, hn]
    simp only [List.length_cons, List.length_nil]
    omega
  have hdrop : (((st1.lits ++ [raw.getD (raw.length - 1) 0]).map Fin.val).drop
      st1.lit_lens.sum).take (raw.length - start) = (raw.map Fin.val).drop start := by
    rw [hlits, List.map_append, ← hL, ← List.length_map L Fin.val, List.drop_left,
      List.map_drop, List.take_of_length_le (by rw [List.length_drop, List.length_map])]
  rw [if_pos (by rw [hlen]), hdrop] at hfull
  rw [e]
  simp only
  refine ⟨_, _, _, hchunks, rfl, by omega, by
    rw [List.length_append, inv.len_lits]; rfl, hfull, ?_, ?_, by omega⟩
  · rcases inv.covered with h | h
    · rw [h, List.take_append_drop]
    · rw [h.1, List.take_of_length_le (by rw [List.length_map])]
      exact List.prefix_append _ _
  · rcases inv.covered with h | h
    · left
      rw [h, List.take_append_drop, List.length_map]
    · right
      rw [h.1, List.take_of_length_le (by rw [List.length_map]), List.length_append,
        List.length_map, List.length_drop, List.length_map, h.2.1]
      omega

/-- Witness of C19: the wide pass on `1 2 3 4 1 2 3 4 9` records one chunk and keeps the
literals `1 2 3 4 9`; the replay is the input itself. -/
theorem wide_pass_replay_prefix_witness :
    0 < ([1, 2, 3, 4, 1, 2, 3, 4, 9] : List u8).length
    ∧ (∃ used out1 out,
      spec_replay_chunks
          (List.map Fin.val
            (generate_chunks MIN_MAIN_PASS_MATCH_LEN MAX_MAIN_PASS_MATCH_LEN (init fun _ => 0)
              [1, 2, 3, 4, 1, 2, 3, 4, 9] 9).lits)
          (generate_chunks MIN_MAIN_PASS_MATCH_LEN MAX_MAIN_PASS_MATCH_LEN (init fun _ => 0)
            [1, 2, 3, 4, 1, 2, 3, 4, 9] 9).lit_lens
          (generate_chunks MIN_MAIN_PASS_MATCH_LEN MAX_MAIN_PASS_MATCH_LEN (init fun _ => 0)
            [1, 2, 3, 4, 1, 2, 3, 4, 9] 9).match_lens
          (generate_chunks MIN_MAIN_PASS_MATCH_LEN MAX_MAIN_PASS_MATCH_LEN (init fun _ => 0)
            [1, 2, 3, 4, 1, 2, 3, 4, 9] 9).match_offsets 0 []
        = some (used, out1)
      ∧ used = List.sum
          (generate_chunks MIN_MAIN_PASS_MATCH_LEN MAX_MAIN_PASS_MATCH_LEN (init fun _ => 0)
            [1, 2, 3, 4, 1, 2, 3, 4, 9] 9).lit_lens
      ∧ used
          + (generate_chunks MIN_MAIN_PASS_MATCH_LEN MAX_MAIN_PASS_MATCH_LEN (init fun _ => 0)
              [1, 2, 3, 4, 1, 2, 3, 4, 9] 9).trailing_lit_len
        = (generate_chunks MIN_MAIN_PASS_MATCH_LEN MAX_MAIN_PASS_MATCH_LEN (init fun _ => 0)
            [1, 2, 3, 4, 1, 2, 3, 4, 9] 9).n_lits
      ∧ List.length
          (generate_chunks MIN_MAIN_PASS_MATCH_LEN MAX_MAIN_PASS_MATCH_LEN (init fun _ => 0)
            [1, 2, 3, 4, 1, 2, 3, 4, 9] 9).lits
        = (generate_chunks MIN_MAIN_PASS_MATCH_LEN MAX_MAIN_PASS_MATCH_LEN (init fun _ => 0)
            [1, 2, 3, 4, 1, 2, 3, 4, 9] 9).n_lits
      ∧ spec_replay
          (List.map Fin.val
            (generate_chunks MIN_MAIN_PASS_MATCH_LEN MAX_MAIN_PASS_MATCH_LEN (init fun _ => 0)
              [1, 2, 3, 4, 1, 2, 3, 4, 9] 9).lits)
          (generate_chunks MIN_MAIN_PASS_MATCH_LEN MAX_MAIN_PASS_MATCH_LEN (init fun _ => 0)
            [1, 2, 3, 4, 1, 2, 3, 4, 9] 9).trailing_lit_len
          (generate_chunks MIN_MAIN_PASS_MATCH_LEN MAX_MAIN_PASS_MATCH_LEN (init fun _ => 0)
            [1, 2, 3, 4, 1, 2, 3, 4, 9] 9).lit_lens
          (generate_chunks MIN_MAIN_PASS_MATCH_LEN MAX_MAIN_PASS_MATCH_LEN (init fun _ => 0)
            [1, 2, 3, 4, 1, 2, 3, 4, 9] 9).match_lens
          (generate_chunks MIN_MAIN_PASS_MATCH_LEN MAX_MAIN_PASS_MATCH_LEN (init fun _ => 0)
            [1, 2, 3, 4, 1, 2, 3, 4, 9] 9).match_offsets 0 []
        = some out
      ∧ ([1, 2, 3, 4, 1, 2, 3, 4, 9] : List u8).map Fin.val <+: out
      ∧ (out.length = ([1, 2, 3, 4, 1, 2, 3, 4, 9] : List u8).length
        ∨ out.length = ([1, 2, 3, 4, 1, 2, 3, 4, 9] : List u8).length + 1)
      ∧ 1 ≤ (generate_chunks MIN_MAIN_PASS_MATCH_LEN MAX_MAIN_PASS_MATCH_LEN (init fun _ => 0)
          [1, 2, 3, 4, 1, 2, 3, 4, 9] 9).trailing_lit_len)
    ∧ spec_replay [1, 2, 3, 4, 9] 1 [4] [4] [4] 0 [] = some [1, 2, 3, 4, 1, 2, 3, 4, 9] :=
  ⟨by decide,
    wide_pass_replay_prefix (fun _ => 0) [1, 2, 3, 4, 1, 2, 3, 4, 9] (by decide),
    by decide⟩

end Lz4pj
